import Mathlib

/-!
Verification of the aoe2tetris trigger-compilation core.

This file embeds, as executable Lean definitions, the parts of the source
needed to settle the frozen claims:
* the binary probability-tree builder `_declare_prob_tree`
  (`src/tetrisdata.py` / `src/aoe2tetris.py`), including an exact rational
  model of the CPython binary64 percentage computation
  `int(100.0 * round(num_left / total, 2))`;
* the tree wiring `_impl_rand_tree` and the swap-message helper `_swap_msg`
  (`src/aoe2tetris.py`);
* the render-trigger declaration `_declare_render_triggers` together with
  `Tetromino`, `Direction`, and `Index` (`src/tetrisdata.py`,
  `src/tetromino.py`, `src/direction.py`, `src/index.py`);
* the `ChanceNode` constructor (`src/probtree.py`);
* the trigger-declaration pass of `TetrisData.__init__`
  (`src/tetrisdata.py`).
-/

attribute [local semireducible] Rat.mul Rat.add Rat.sub Rat.inv

set_option maxRecDepth 1000000

namespace Aoe2Tetris

/-! ## Exact model of the CPython float pipeline

The source computes `percent = int(100.0 * round(num_left / total, 2))` over
IEEE-754 binary64 values.  Every step of that pipeline is modelled here
exactly over `ℚ`:

* `fl q` is the binary64 value nearest to the positive rational `q`
  (round-to-nearest, ties to even), written as a rational;
* `pyRound2 y` is CPython's `round(y, 2)`: the exact value of the double `y`
  is rounded to the nearest multiple of `1/100` (ties to even) and the
  resulting decimal is converted back to the nearest double;
* `pyInt` is Python's `int()` truncation toward zero.

The modelled range never produces subnormal or overflowing values, so the
normal-number formula (53-bit significand) is the whole story.
-/

/-- Round a rational to the nearest integer, ties to even.  (`Rat.floor` is
used rather than `Int.floor` so that the kernel can evaluate it.) -/
def rhe (q : ℚ) : ℤ :=
  let n := q.floor
  let f := q - (n : ℚ)
  if f < 1 / 2 then n
  else if 1 / 2 < f then n + 1
  else if n % 2 = 0 then n else n + 1

/-- Fuel-indexed floor of the base-two logarithm (fuel-structural so the
kernel can evaluate it). -/
def natLgAux : ℕ → ℕ → ℕ
  | 0, _ => 0
  | f + 1, n => if n ≤ 1 then 0 else natLgAux f (n / 2) + 1

/-- Floor of the base-two logarithm of a positive natural. -/
def natLg (n : ℕ) : ℕ := natLgAux n n

/-- The rational `2 ^ e` for an integer exponent `e`. -/
def pow2z (e : ℤ) : ℚ :=
  if 0 ≤ e then ((2 ^ e.toNat : ℕ) : ℚ) else ((2 ^ (-e).toNat : ℕ) : ℚ)⁻¹

/-- Binary exponent of a positive rational: the `e` with `2^e ≤ q < 2^(e+1)`,
found from the bit lengths of the numerator and denominator. -/
def qexp (q : ℚ) : ℤ :=
  let e0 : ℤ := (natLg q.num.toNat : ℤ) - (natLg q.den : ℤ)
  if pow2z e0 ≤ q then e0 else e0 - 1

/-- The binary64 double nearest to `q` (positive normal range), as an exact
rational: the significand is `q` scaled to `[2^52, 2^53)` and rounded to the
nearest integer, ties to even. -/
def fl (q : ℚ) : ℚ :=
  if q ≤ 0 then 0
  else (rhe (q * pow2z (52 - qexp q)) : ℚ) * pow2z (qexp q - 52)

/-- Model of CPython's `round(y, 2)` on a double `y`: correctly rounded to
two decimal digits, then converted to the nearest double. -/
def pyRound2 (y : ℚ) : ℚ := fl ((rhe (y * 100) : ℚ) / 100)

/-- Python's `int()` truncation toward zero on a rational value. -/
def pyInt (q : ℚ) : ℤ := Int.tdiv q.num (q.den : ℤ)

/-- Exact value of `int(100.0 * round(a / b, 2))` computed over binary64
floats, as the source's `declare_range` does for `a = num_left` and
`b = total`. -/
def pyPercent (a b : ℕ) : ℤ :=
  pyInt (fl (100 * pyRound2 (fl ((a : ℚ) / (b : ℚ)))))

/-- Rounding to the nearest integer, written with `Rat.floor` so the kernel
can evaluate it; `qround_eq_round` below identifies it with Mathlib's
`round`. -/
def qround (q : ℚ) : ℤ := (q + 1 / 2).floor

/-! ## Triggers and the probability tree

`Trigger` models the fields of the scenario-parser `TriggerObject` that the
sources read or write: the display name, the `enabled` and `looping` flags
fixed at declaration, and the condition and effect lists appended to by
`add_condition` / `add_effect`.  A trigger manager is the append-only list
of declared triggers; a trigger's id is its index in that list.
-/

/-- The trigger conditions attached by the embedded code
(`Condition.CHANCE` with an integer percentage). -/
inductive Cond where
  | chance (percent : ℤ)
deriving DecidableEq, Repr

/-- The trigger effects attached by the embedded code. -/
inductive Eff where
  | activate (tid : ℕ)
  | deactivate (tid : ℕ)
  | scriptCall (msg : String)
deriving DecidableEq, Repr

/-- A declared trigger: name, declaration flags, and the appended
conditions and effects. -/
structure Trigger where
  name : String
  enabled : Bool
  looping : Bool
  conditions : List Cond
  effects : List Eff
deriving DecidableEq, Repr

/-- `tmgr.add_trigger(name, enabled=…, looping=…)`: appends a fresh trigger
and returns its id (its index in the trigger list). -/
def addTrigger (tm : List Trigger) (name : String) (enabled looping : Bool) :
    ℕ × List Trigger :=
  (tm.length, tm ++ [⟨name, enabled, looping, [], []⟩])

/-- `ChanceNode` (`src/probtree.py`): an integer percentage together with
the success and failure triggers (held by id). -/
structure ChanceNode where
  percent : ℤ
  success : ℕ
  failure : ℕ
deriving DecidableEq, Repr

/-- The `ChanceNode` constructor with its `ValueError` check
(`src/probtree.py`, lines 18-36): rejects exactly when
`percent < 0 or 100 < percent`, otherwise stores `percent` unmodified. -/
def ChanceNode.make (percent : ℤ) (success failure : ℕ) :
    Except String ChanceNode :=
  if percent < 0 ∨ 100 < percent then
    .error (toString percent ++ " must be in `0--100`, inclusive.")
  else
    .ok ⟨percent, success, failure⟩

/-- `ProbTree = BTreeNode[Union[ChanceNode, int]]`: the builder produces
either a childless node holding an `int` (a leaf) or a node holding a
`ChanceNode` with two children. -/
inductive ProbTree where
  | leaf (v : ℕ)
  | node (c : ChanceNode) (l r : ProbTree)
deriving DecidableEq, Repr

/-- The inner recursion `declare_range(left, right)` of `_declare_prob_tree`
(`src/tetrisdata.py`, lines 295-318).  The recursion is driven by a fuel
argument so that it is structural; `fuel ≥ right - left` reproduces the
source exactly, since each recursive call strictly shrinks the subrange.
The state is the trigger list together with the `name_char` counter
(`chr(ord('a') + k)`).  The `ChanceNode` constructed here is built directly:
`percent_in_range` below shows the constructor's `ValueError` branch is dead
for every percentage this recursion computes. -/
def declareRangeF (namePre : String) :
    ℕ → ℕ → ℕ → List Trigger × ℕ → ProbTree × (List Trigger × ℕ)
  | 0, left, _, st => (.leaf left, st)
  | fuel + 1, left, right, st =>
    let total := right - left
    let mid := left + total / 2
    let numLeft := mid - left
    let numRight := right - mid
    let percent := pyPercent numLeft total
    let s1 := addTrigger st.1
      (namePre ++ " " ++ String.singleton (Char.ofNat (97 + st.2)) ++ " success")
      false false
    let s2 := addTrigger s1.2
      (namePre ++ " " ++ String.singleton (Char.ofNat (97 + st.2 + 1)) ++ " failure")
      false false
    let st2 := (s2.2, st.2 + 2)
    let lres :=
      if numLeft = 1 then ((ProbTree.leaf left), st2)
      else declareRangeF namePre fuel left mid st2
    let rres :=
      if numRight = 1 then ((ProbTree.leaf (right - 1)), lres.2)
      else declareRangeF namePre fuel mid right lres.2
    (.node ⟨percent, s1.1, s2.1⟩ lres.1 rres.1, rres.2)

/-- `_declare_prob_tree(tmgr, n, pre)` (`src/tetrisdata.py`, lines 282-320;
the `src/aoe2tetris.py` version, lines 447-483, is the `pre = none` case).
The `n < 1` check precedes every trigger declaration, so on error the
trigger list is returned unchanged.  `namePreFor` is the `name_prefix`
f-string. -/
def namePreFor (pre : Option String) (n : ℤ) : String :=
  match pre with
  | some p => p ++ " Generate 0--" ++ toString n
  | none => "Generate 0--" ++ toString n

/-- The top-level body of `_declare_prob_tree`. -/
def declareProbTree (pre : Option String) (n : ℤ) (tm : List Trigger) :
    Except String ProbTree × List Trigger :=
  if n < 1 then (.error (toString n ++ " must be positive."), tm)
  else
    let res := declareRangeF (namePreFor pre n) (n.toNat + 1) 0 (n.toNat + 1) (tm, 0)
    (.ok res.1, res.2.1)

/-- A coin-flip outcome at a `ChanceNode`: the Chance condition either
succeeds or fails. -/
inductive Flip where
  | success
  | failure
deriving DecidableEq, Repr

/-- Modelled from the spec: driving a probability tree by a sequence of
coin-flip outcomes, a success descending into the left (success) child and
a failure into the right (failure) child, terminating at the first leaf
reached.  (The source has no in-repo driver — at runtime the game engine
walks the tree through the trigger wiring.) -/
def walkTree : ProbTree → List Flip → Option ℕ
  | .leaf v, _ => some v
  | .node _ _ _, [] => none
  | .node _ l _, .success :: rest => walkTree l rest
  | .node _ _ r, .failure :: rest => walkTree r rest

/-- The leaf values of a tree, left to right. -/
def leafVals : ProbTree → List ℕ
  | .leaf v => [v]
  | .node _ l r => leafVals l ++ leafVals r

/-- The root-to-leaf paths of a tree, in the same order as `leafVals`
(`true` = descend into the success child). -/
def leafPaths : ProbTree → List (List Bool)
  | .leaf _ => [[]]
  | .node _ l r =>
      (leafPaths l).map (true :: ·) ++ (leafPaths r).map (false :: ·)

/-- The percentages stored at the internal nodes of a tree. -/
def percents : ProbTree → List ℤ
  | .leaf _ => []
  | .node c l r => c.percent :: (percents l ++ percents r)

/-- The internal nodes of a tree, each with its two children. -/
def internals : ProbTree → List (ChanceNode × ProbTree × ProbTree)
  | .leaf _ => []
  | .node c l r => (c, l, r) :: (internals l ++ internals r)

/-- The subranges `(left, right)` visited by `declare_range`, mirroring the
recursion of `declareRangeF` (same fuel discipline), in the same order as
`percents`. -/
def splitsF : ℕ → ℕ → ℕ → List (ℕ × ℕ)
  | 0, _, _ => []
  | fuel + 1, left, right =>
    let total := right - left
    let mid := left + total / 2
    let numLeft := mid - left
    let numRight := right - mid
    (left, right) ::
      ((if numLeft = 1 then [] else splitsF fuel left mid) ++
        (if numRight = 1 then [] else splitsF fuel mid right))

/-! ## Board indices and rotations (`src/index.py`, `src/rotation.py`) -/

/-- A row-column coordinate on the board (`Index.__init__`). -/
structure Index where
  r : ℤ
  c : ℤ
deriving DecidableEq, Repr

/-- `Rotation` (`src/rotation.py`): a 90-degree rotation direction. -/
inductive Rotation where
  | cw
  | ccw
deriving DecidableEq, Repr

/-- `Index.rotate` (`src/index.py`, lines 51-57): clockwise maps `(r, c)` to
`(c, -r)`, counterclockwise to `(-c, r)`. -/
def Index.rotate (i : Index) (rot : Rotation) : Index :=
  match rot with
  | .cw => ⟨i.c, -i.r⟩
  | .ccw => ⟨-i.c, i.r⟩

/-- `Index.__eq__` (`src/index.py`, lines 31-36): structural equality of both
coordinates (between two `Index` values). -/
def Index.eqv (a b : Index) : Prop := a.r = b.r ∧ a.c = b.c

/-! ## Directions and Tetrominos (`src/direction.py`, `src/tetromino.py`) -/

/-- `Direction` (`src/direction.py`): `U = 0`, `R = 1`, `D = 2`, `L = 3`. -/
inductive Direction where
  | U
  | R
  | D
  | L
deriving DecidableEq, Repr

/-- `list(Direction)`, in enum definition order. -/
def dirList : List Direction := [.U, .R, .D, .L]

/-- `str(d)` for a `Direction`, as Python renders an enum member without a
custom `__str__`. -/
def dirStr : Direction → String
  | .U => "Direction.U"
  | .R => "Direction.R"
  | .D => "Direction.D"
  | .L => "Direction.L"

/-- `Tetromino` (`src/tetromino.py`, lines 15-24): the seven pieces with
values `L = 1, Z = 2, S = 3, O = 4, I = 5, T = 6, J = 7`. -/
inductive Tetromino where
  | L
  | Z
  | S
  | O
  | I
  | T
  | J
deriving DecidableEq, Repr

/-- `list(Tetromino)`, in enum definition order. -/
def tetList : List Tetromino := [.L, .Z, .S, .O, .I, .T, .J]

/-- `Tetromino.num()`: the number of Tetrominos. -/
def tetNum : ℕ := tetList.length

/-- The enum value of a `Tetromino`. -/
def tetVal : Tetromino → ℕ
  | .L => 1
  | .Z => 2
  | .S => 3
  | .O => 4
  | .I => 5
  | .T => 6
  | .J => 7

/-- `str(t)` for a `Tetromino` (the `_STR` table of `src/tetromino.py`). -/
def tetStr : Tetromino → String
  | .L => "L"
  | .Z => "Z"
  | .S => "S"
  | .O => "O"
  | .I => "I"
  | .T => "T"
  | .J => "J"

/-- `Tetromino(t)`: the enum member with value `t`, if any (the `_FROM_INT`
table of `src/tetromino.py`). -/
def ofIntTet : ℕ → Option Tetromino
  | 1 => some .L
  | 2 => some .Z
  | 3 => some .S
  | 4 => some .O
  | 5 => some .I
  | 6 => some .T
  | 7 => some .J
  | _ => none

/-- The keys of the dictionary built by `_declare_render_triggers`
(`src/tetrisdata.py`, lines 360-385), in comprehension order:
`r` over `range(rows // 2, rows)`, `c` over `range(cols)`, `d` over
`list(Direction)`, `t` over `range(Tetromino.num() + 1)`, with occupant
value `0` mapped to `None` and a nonzero `t` to `Tetromino(t)`. -/
def renderKeys (rows cols : ℕ) :
    List (Index × Direction × Option Tetromino) :=
  (List.range' (rows / 2) (rows - rows / 2)).flatMap fun r =>
    (List.range cols).flatMap fun c =>
      dirList.flatMap fun d =>
        (List.range (tetNum + 1)).map fun t =>
          (⟨(r : ℤ), (c : ℤ)⟩, d, if t = 0 then none else ofIntTet t)

/-! ## The tree wiring `_impl_rand_tree` (`src/aoe2tetris.py`, lines 633-674)

The wiring walks the tree with an explicit worklist (`nodes.pop()` pops the
most recently pushed element), adds the Chance condition to each split's
success trigger, and appends effects to the success and failure triggers.
Popping last-in-first-out means: after a node is processed, its right
subtree's internal nodes are processed (completely) before its left
subtree's, which is the recursion order of `implNode` below.
-/

/-- Replace the trigger at index `tid` by `f` of it (no-op out of range). -/
def updAt : List Trigger → ℕ → (Trigger → Trigger) → List Trigger
  | [], _, _ => []
  | t :: ts, 0, f => f t :: ts
  | t :: ts, n + 1, f => t :: updAt ts n f

/-- `trigger.add_condition(c)` on the trigger with id `tid`. -/
def addCondAt (tm : List Trigger) (tid : ℕ) (c : Cond) : List Trigger :=
  updAt tm tid fun t =>
    ⟨t.name, t.enabled, t.looping, t.conditions ++ [c], t.effects⟩

/-- `trigger.add_effect(e)` on the trigger with id `tid`. -/
def addEffAt (tm : List Trigger) (tid : ℕ) (e : Eff) : List Trigger :=
  updAt tm tid fun t =>
    ⟨t.name, t.enabled, t.looping, t.conditions, t.effects ++ [e]⟩

/-- `current_pieces[k].variable_id`: `_declare_variables`
(`src/aoe2tetris.py`, lines 261-273) adds the "current" piece variables
first, so the variable holding sequence slot `k` has variable id `k`. -/
def varId (k : ℕ) : ℕ := k

/-- `_swap_msg(id0, id1)` (`src/aoe2tetris.py`, lines 202-210) for counter
value `g`: the xs-script source text for a `swap(id0, id1)` call. -/
def swapMsg (g : ℕ) (id0 id1 : ℕ) : String :=
  "void _" ++ toString g ++ "() \x7b\n    swap(" ++ toString id0 ++ ", " ++
    toString id1 ++ ");\n\x7d"

/-- Wiring state: the trigger list plus the global `SWAP_MESSAGE_GLOBAL`
counter (incremented before each use). -/
structure WState where
  tm : List Trigger
  swapCount : ℕ
deriving DecidableEq, Repr

/-- One iteration of the `for child, trigger in [(n.left, success),
(n.right, failure)]` loop body: append `DEACTIVATE_TRIGGER` of the
*success* trigger (as the source does for both pair members), then for an
`int` child `k ≠ 0` append the swap `SCRIPT_CALL`, and for a `ChanceNode`
child append `ACTIVATE_TRIGGER` of its two triggers. -/
def wireChild (st : WState) (successId triggerId : ℕ) (child : ProbTree) :
    WState :=
  let st1 : WState := ⟨addEffAt st.tm triggerId (.deactivate successId), st.swapCount⟩
  match child with
  | .leaf k =>
      if k ≠ 0 then
        ⟨addEffAt st1.tm triggerId
            (.scriptCall (swapMsg (st1.swapCount + 1) (varId 0) (varId k))),
          st1.swapCount + 1⟩
      else st1
  | .node c _ _ =>
      ⟨addEffAt (addEffAt st1.tm triggerId (.activate c.success)) triggerId
          (.activate c.failure),
        st1.swapCount⟩

/-- The worklist loop of `_impl_rand_tree`, as a recursion: process the
node (Chance condition, both child wirings), then the right subtree, then
the left subtree (the pop order of the source's stack).  The worklist never
holds an `int`-data node, so a leaf is returned unchanged. -/
def implNode (st : WState) : ProbTree → WState
  | .leaf _ => st
  | .node c l r =>
    let st1 : WState := ⟨addCondAt st.tm c.success (.chance c.percent), st.swapCount⟩
    let st2 := wireChild st1 c.success c.success l
    let st3 := wireChild st2 c.success c.failure r
    let st4 := match r with
      | .node _ _ _ => implNode st3 r
      | .leaf _ => st3
    match l with
    | .node _ _ _ => implNode st4 l
    | .leaf _ => st4

/-- The internal trigger ids of a tree (success and failure of every
split). -/
def treeIds : ProbTree → List ℕ
  | .leaf _ => []
  | .node c l r => c.success :: c.failure :: (treeIds l ++ treeIds r)

/-- The effect suffix `wireChild` appends to the trigger paired with
`child`: always the deactivate-effect targeting the split's success
trigger, then — for an `int` child `k ≠ 0` — one swap `SCRIPT_CALL` (for
some counter value), or — for a `ChanceNode` child — the two
activate-effects. -/
def ChildSuffix (sid : ℕ) (child : ProbTree) (effs : List Eff) : Prop :=
  match child with
  | .leaf 0 => effs = [.deactivate sid]
  | .leaf (k + 1) =>
      ∃ g, effs = [.deactivate sid,
        .scriptCall (swapMsg g (varId 0) (varId (k + 1)))]
  | .node c _ _ =>
      effs = [.deactivate sid, .activate c.success, .activate c.failure]

/-- Whether an effect is a `SCRIPT_CALL`. -/
def isScriptCall : Eff → Bool
  | .scriptCall _ => true
  | _ => false

/-- Following the spec's formula: the success percentage of a split is
`round(100 * num_left / (num_left + num_right))`, rounded to the nearest
integer percentage.  (Stated with Mathlib's `round`; compared against the
source's float computation `pyPercent` by claim C3.) -/
def specPercent (numLeft numRight : ℕ) : ℤ :=
  round ((100 * numLeft : ℚ) / ((numLeft : ℚ) + (numRight : ℚ)))

/-! ## The declaration pass of `TetrisData.__init__`
(`src/tetrisdata.py`, lines 478-528)

The trigger declarations of `__init__` are reproduced in order, split into
named stages so that each recorded trigger id can be related to its stage.
Helpers that declare several triggers in one comprehension
(`_declare_selection_triggers`, `_declare_clear_row_triggers`,
`_declare_render_triggers`, `_declare_render_next_triggers`,
`_declare_render_hold_triggers`, `_declare_explode_row_triggers`) append
their whole trigger list at once, in comprehension order.  Unit placement,
objective texts, and variables do not declare triggers and are omitted.
-/

/-- `_declare_rand_int_triggers(tmgr, pre)` (`src/tetrisdata.py`, lines
323-334): one probability tree per bound `n` for
`n in range(Tetromino.num() - 1, 0, -1)`, that is `n = 6, 5, 4, 3, 2, 1`. -/
def declareRandIntTriggers (pre : String) (tm : List Trigger) :
    List (Except String ProbTree) × List Trigger :=
  ([6, 5, 4, 3, 2, 1] : List ℤ).foldl
    (fun acc n =>
      let res := declareProbTree (some pre) n acc.2
      (acc.1 ++ [res.1], res.2))
    ([], tm)

/-- `_declare_selection_triggers` (`src/tetrisdata.py`, lines 347-357): one
disabled trigger per hotkey building, in the insertion order of
`HOTKEY_BUILDINGS` (`src/hotkeys.py`, lines 12-21).  The display names come
from the external library's `building_names` table; only the count and
order of the triggers matter to the claims. -/
def selectionTriggers : List Trigger :=
  (["ARCHERY_RANGE", "BLACKSMITH", "STABLE", "KREPOST", "MONASTERY",
    "CASTLE", "SIEGE_WORKSHOP", "UNIVERSITY"].map
    fun b => ⟨"Select " ++ b, false, false, [], []⟩)

/-- `_declare_clear_row_triggers` (`src/tetrisdata.py`, lines 417-424). -/
def clearRowTriggers (rows visible : ℕ) : List Trigger :=
  (List.range' visible (rows - visible)).map fun r =>
    ⟨"Clear Row " ++ toString r, false, false, [], []⟩

/-- The triggers declared by `_declare_render_triggers`
(`src/tetrisdata.py`, lines 360-385), in the comprehension order of
`renderKeys`. -/
def renderTriggerList (rows cols : ℕ) : List Trigger :=
  (List.range' (rows / 2) (rows - rows / 2)).flatMap fun r =>
    (List.range cols).flatMap fun c =>
      dirList.flatMap fun d =>
        (List.range (tetNum + 1)).map fun t =>
          ⟨"Render (" ++ toString r ++ ", " ++ toString c ++ "), " ++
              dirStr d ++ ", " ++ toString t,
            false, false, [], []⟩

/-- `_declare_render_next_triggers` (`src/tetrisdata.py`, lines 388-396). -/
def renderNextTriggers : List Trigger :=
  ([0, 1, 2] : List ℕ).flatMap fun i =>
    tetList.map fun t =>
      ⟨"Render next " ++ toString i ++ " " ++ tetStr t, false, false, [], []⟩

/-- `_declare_render_hold_triggers` (`src/tetrisdata.py`, lines 399-404). -/
def renderHoldTriggers : List Trigger :=
  (List.range (tetNum + 1)).map fun t =>
    ⟨"Render hold " ++ toString t, false, false, [], []⟩

/-- `_declare_explode_row_triggers` (`src/tetrisdata.py`, lines 407-414). -/
def explodeRowTriggers (rows visible : ℕ) : List Trigger :=
  (List.range' visible (rows - visible)).map fun r =>
    ⟨"Explode Row " ++ toString r, false, false, [], []⟩

/-- Stage: triggers declared before the first sequence-initialization
trees ("-- Init --" through "Begin Game"). -/
def tmStage1 : List Trigger :=
  [⟨"-- Init --", false, false, [], []⟩,
    ⟨"Init Scenario", true, false, [], []⟩,
    ⟨"-- Objectives --", false, false, [], []⟩,
    ⟨"Game Over Objective", false, false, [], []⟩,
    ⟨"New Game Instructions Objective", true, false, [], []⟩,
    ⟨"Stats Objective", false, false, [], []⟩,
    ⟨"-- Begin Game --", false, false, [], []⟩,
    ⟨"Can Begin Game", true, false, [], []⟩,
    ⟨"Begin Game", false, false, [], []⟩]

/-- Stage: after `self._seq_init0 = _declare_sequence_init(tmgr, "Init a")`. -/
def tmStage2 : List Trigger := (declareRandIntTriggers "Init a" tmStage1).2

/-- Stage: after "Begin Game Middle" and the "-- Game Loop --" header. -/
def tmStage3 : List Trigger :=
  tmStage2 ++ [⟨"Begin Game Middle", false, false, [], []⟩,
    ⟨"-- Game Loop --", true, false, [], []⟩]

/-- The id returned for the Game Loop trigger
(`tmgr.add_trigger("Game Loop", enabled=False, looping=True)`). -/
def gameLoopId : ℕ := (addTrigger tmStage3 "Game Loop" false true).1

/-- Stage: after the Game Loop declaration. -/
def tmStage4 : List Trigger := (addTrigger tmStage3 "Game Loop" false true).2

/-- Stage: after the selection triggers and "New Game". -/
def tmStage5 : List Trigger :=
  (tmStage4 ++ selectionTriggers) ++ [⟨"New Game", false, false, [], []⟩]

/-- The id returned for the Update trigger
(`tmgr.add_trigger("Update", enabled=False)`). -/
def updateId : ℕ := (addTrigger tmStage5 "Update" false false).1

/-- Stage: after the Update declaration. -/
def tmStage6 : List Trigger := (addTrigger tmStage5 "Update" false false).2

/-- Stage: after "Activate Shuffle", the second sequence-initialization
trees, and the "-- Rendering --" header. -/
def tmStage7 : List Trigger :=
  (declareRandIntTriggers "Init b"
      (tmStage6 ++ [⟨"Activate Shuffle", false, false, [], []⟩])).2 ++
    [⟨"-- Rendering --", true, false, [], []⟩]

/-- Stage: after the clear-row, render, render-next, render-hold, and
explode-row trigger blocks and the five "React …" triggers. -/
def tmStage8 (rows cols visible : ℕ) : List Trigger :=
  ((((tmStage7 ++ clearRowTriggers rows visible) ++
        renderTriggerList rows cols) ++
      renderNextTriggers ++ renderHoldTriggers ++
      explodeRowTriggers rows visible) ++
    [⟨"React Tetris", false, false, [], []⟩,
      ⟨"React Move", false, false, [], []⟩,
      ⟨"React Hold", false, false, [], []⟩,
      ⟨"React Hold Fail", false, false, [], []⟩,
      ⟨"React Lock", false, false, [], []⟩])

/-- The id returned for the Game Over trigger
(`tmgr.add_trigger("Game Over", enabled=False)`). -/
def gameOverId (rows cols visible : ℕ) : ℕ :=
  (addTrigger (tmStage8 rows cols visible) "Game Over" false false).1

/-- Stage: after the Game Over declaration, the two game-over reaction
triggers, and the "-- Ending Game Loop --" header. -/
def tmStage9 (rows cols visible : ℕ) : List Trigger :=
  (addTrigger (tmStage8 rows cols visible) "Game Over" false false).2 ++
    [⟨"React Game Over", false, false, [], []⟩,
      ⟨"React Game Over Easter Egg", false, false, [], []⟩,
      ⟨"-- Ending Game Loop --", true, false, [], []⟩]

/-- The id returned for the Cleanup trigger
(`tmgr.add_trigger("Cleanup", enabled=False)`). -/
def cleanupId (rows cols visible : ℕ) : ℕ :=
  (addTrigger (tmStage9 rows cols visible) "Cleanup" false false).1

/-- The full trigger list declared by `TetrisData.__init__`. -/
def tetrisInitTriggers (rows cols visible : ℕ) : List Trigger :=
  (addTrigger (tmStage9 rows cols visible) "Cleanup" false false).2 ++
    [⟨"Begin Game End", false, false, [], []⟩]

/-- The tree declared by `_declare_prob_tree(tmgr, n)` on a fresh trigger
manager (a junk leaf for the dead `n < 1` case). -/
def demoTree (n : ℤ) : ProbTree :=
  match (declareProbTree none n []).1 with
  | .ok t => t
  | .error _ => .leaf 0

/-- The wiring state after `_impl_rand_tree` runs on the tree declared by
`_declare_prob_tree(tmgr, n)` over a fresh trigger manager, with the swap
counter starting at 0. -/
def demoWired (n : ℤ) : WState :=
  implNode ⟨(declareProbTree none n []).2, 0⟩ (demoTree n)

/-! ## Basic lemmas -/

/-- `Rat.floor` agrees with `Int.floor`. -/
theorem ratFloor_eq_intFloor (q : ℚ) : q.floor = ⌊q⌋ :=
  (Rat.floor_def' q).trans Rat.floor_def.symm

/-- `qround` is rounding to the nearest integer in Mathlib's sense. -/
theorem qround_eq_round (q : ℚ) : qround q = round q := by
  rw [qround, ratFloor_eq_intFloor, round_eq]

/-! ## Claims C10, C8, C7, C5, C2 -/

/-- C10: for every `Index` `i`, rotating clockwise then counterclockwise
returns an index equal to `i`, and rotating counterclockwise then clockwise
also returns an index equal to `i`, under `Index.__eq__`'s structural
equality. -/
theorem c10_rotate_roundtrip (i : Index) :
    ((i.rotate .cw).rotate .ccw).eqv i ∧ ((i.rotate .ccw).rotate .cw).eqv i := by
  refine ⟨⟨?_, ?_⟩, ⟨?_, ?_⟩⟩ <;> simp [Index.rotate]

/-- C8: constructing `ChanceNode(percent, success, failure)` raises a
`ValueError` if and only if `percent < 0` or `percent > 100`; when the
construction succeeds the stored percent is exactly the value passed in
(never clamped). -/
theorem c8_chance_node_validation (percent : ℤ) (s f : ℕ) :
    ((∃ e, ChanceNode.make percent s f = .error e) ↔
      (percent < 0 ∨ 100 < percent)) ∧
    (∀ c, ChanceNode.make percent s f = .ok c → c.percent = percent) := by
  unfold ChanceNode.make
  by_cases h : percent < 0 ∨ 100 < percent
  · rw [if_pos h]
    exact ⟨⟨fun _ => h, fun _ => ⟨_, rfl⟩⟩, fun c hc => by cases hc⟩
  · rw [if_neg h]
    refine ⟨⟨fun he => ?_, fun hh => absurd hh h⟩, fun c hc => by cases hc; rfl⟩
    obtain ⟨e, he⟩ := he
    cases he

/-- Witness for C8: `percent = 101` is rejected; `percent = 50` is stored
unmodified. -/
theorem c8_chance_node_validation_witness :
    (∃ e, ChanceNode.make 101 1 2 = .error e) ∧
      (⟨50, 1, 2⟩ : ChanceNode).percent = 50 :=
  ⟨(c8_chance_node_validation 101 1 2).1.mpr (by decide),
    (c8_chance_node_validation 50 1 2).2 ⟨50, 1, 2⟩ rfl⟩

/-- C5 counterexample: for the bound-6 tree, the outcome sequence
[success, failure, success, success, failure] does not stop at the leaf
with value 4. -/
theorem c5_counterexample :
    ¬ ((declareProbTree none 6 []).1.map
        (fun t =>
          walkTree t [.success, .failure, .success, .success, .failure])) =
      .ok (some 4) := by
  intro h
  have h1 : ((declareProbTree none 6 []).1.map
      (fun t =>
        walkTree t [.success, .failure, .success, .success, .failure])) =
      .ok (some 1) := rfl
  rw [h1] at h
  simp at h

/-- C5 amended: for the bound-6 tree (root range `[0, 7)` bisected at
`mid = left + (right-left)//2`, success descending left), the outcome
sequence [success, failure, success, success, failure] deterministically
terminates at the leaf with value 1 — the path success, failure, success
already reaches a leaf at depth 3, so the last two outcomes are unused. -/
theorem c5_amended :
    ((declareProbTree none 6 []).1.map
      (fun t =>
        walkTree t [.success, .failure, .success, .success, .failure])) =
      .ok (some 1) := rfl

/-- C2 evaluated on the bound-1 tree: the success trigger's effect list is
`[deactivate success]` — it deactivates ITSELF and contains no
deactivate-effect targeting the failure trigger, contrary to the claim's
mutual-exclusion pattern; the failure trigger deactivates the success
trigger (and adds the swap call for leaf 1). -/
theorem c2_wiring_eval :
    ((demoWired 1).tm[0]?).map Trigger.effects = some [.deactivate 0] ∧
    ((demoWired 1).tm[1]?).map Trigger.effects =
      some [.deactivate 0, .scriptCall (swapMsg 1 0 1)] ∧
    Eff.deactivate 1 ∉ (((demoWired 1).tm[0]?).map Trigger.effects).getD [] := by
  decide

/-! ## Claim C6: the render-trigger key space -/

/-- A `flatMap` over a duplicate-free list is duplicate-free when each
block is duplicate-free and a projection `p` of every element of block `a`
recovers an injective tag `g a` of the generator. -/
theorem nodup_flatMap_proj {α β γ : Type} (l : List α) (f : α → List β)
    (p : β → γ) (g : α → γ)
    (hl : l.Nodup) (hf : ∀ a ∈ l, (f a).Nodup)
    (hmem : ∀ a ∈ l, ∀ x ∈ f a, p x = g a)
    (hinj : ∀ a ∈ l, ∀ b ∈ l, g a = g b → a = b) :
    (l.flatMap f).Nodup := by
  refine List.nodup_flatMap.2 ⟨hf, ?_⟩
  refine List.Pairwise.imp_of_mem ?_ hl
  intro a b ha hb hne x hxa hxb
  exact hne (hinj a ha b hb ((hmem a ha x hxa).symm.trans (hmem b hb x hxb)))

/-- Length of a `flatMap` whose blocks all have length `k`. -/
theorem length_flatMap_const {α β : Type} (l : List α) (f : α → List β)
    (k : ℕ) (h : ∀ a ∈ l, (f a).length = k) :
    (l.flatMap f).length = l.length * k := by
  induction l with
  | nil => simp
  | cons a as ih =>
    simp only [List.flatMap_cons, List.length_append, List.length_cons]
    rw [h a (List.mem_cons_self a as), ih fun b hb => h b (List.mem_cons_of_mem a hb)]
    ring

/-- Occupant encoding is injective on `0 ≤ t < Tetromino.num() + 1`. -/
theorem occ_inj :
    ∀ x, x < tetNum + 1 → ∀ y, y < tetNum + 1 →
      (if x = 0 then none else ofIntTet x) =
        (if y = 0 then none else ofIntTet y) → x = y := by
  decide

/-- The keys produced for a fixed cell and facing, one per occupant value. -/
theorem renderKeys_inner_nodup (r c : ℕ) (d : Direction) :
    ((List.range (tetNum + 1)).map fun t =>
      ((⟨(r : ℤ), (c : ℤ)⟩ : Index), d,
        if t = 0 then none else ofIntTet t)).Nodup := by
  refine List.Nodup.map_on ?_ (List.nodup_range _)
  intro x hx y hy hxy
  simp only [List.mem_range] at hx hy
  have h2 : (if x = 0 then none else ofIntTet x) =
      (if y = 0 then none else ofIntTet y) := by
    have := congrArg (fun z => z.2.2) hxy
    simpa using this
  exact occ_inj x hx y hy h2

/-- C6: for all `rows` and `cols`, `_declare_render_triggers` builds exactly
one key per (cell, facing, occupant-or-empty) triple over the visible
region — rows `rows//2 ≤ r < rows`, all `cols` columns, all 4 facings, and
`Tetromino.num() + 1 = 8` occupant values — for a total of
`(rows - rows//2) * cols * 4 * 8` distinct keys; occupant value 0 is mapped
to `None` and never to a real Tetromino. -/
theorem c6_render_triggers (rows cols : ℕ) :
    (renderKeys rows cols).Nodup ∧
    (renderKeys rows cols).length = (rows - rows / 2) * cols * 4 * 8 ∧
    tetNum + 1 = 8 ∧
    (∀ t : ℕ, t < tetNum + 1 →
      ((if t = 0 then none else ofIntTet t) = none ↔ t = 0)) := by
  refine ⟨?_, ?_, rfl, by decide⟩
  · refine nodup_flatMap_proj _ _ (fun x => x.1.r) (fun r => (r : ℤ))
      (List.nodup_range' ..) ?_ ?_ ?_
    · intro r _
      refine nodup_flatMap_proj _ _ (fun x => x.1.c) (fun c => (c : ℤ))
        (List.nodup_range _) ?_ ?_ ?_
      · intro c _
        refine nodup_flatMap_proj _ _ (fun x => x.2.1) (fun d => d)
          (by decide) ?_ ?_ ?_
        · intro d _
          exact renderKeys_inner_nodup r c d
        · intro d _ x hx
          simp only [List.mem_map] at hx
          obtain ⟨t, _, rfl⟩ := hx
          rfl
        · intro a _ b _ h
          exact h
      · intro c _ x hx
        simp only [List.mem_flatMap, List.mem_map] at hx
        obtain ⟨d, _, t, _, rfl⟩ := hx
        rfl
      · intro a _ b _ h
        exact Nat.cast_injective h
    · intro r _ x hx
      simp only [List.mem_flatMap, List.mem_map] at hx
      obtain ⟨c, _, d, _, t, _, rfl⟩ := hx
      rfl
    · intro a _ b _ h
      exact Nat.cast_injective h
  · rw [renderKeys]
    rw [length_flatMap_const _ _ (cols * (4 * 8)) ?_]
    · rw [List.length_range']
      ring
    · intro r _
      rw [length_flatMap_const _ _ (4 * 8) ?_]
      · rw [List.length_range]
      · intro c _
        rw [length_flatMap_const _ _ 8 ?_]
        · rfl
        · intro d _
          simp [tetNum, tetList]

/-- Witness for C6 at `rows = 3`, `cols = 2`, occupant `t = 5`. -/
theorem c6_render_triggers_witness :
    (renderKeys 3 2).Nodup ∧
      (renderKeys 3 2).length = (3 - 3 / 2) * 2 * 4 * 8 ∧
      ((if 5 = 0 then none else ofIntTet 5) = none ↔ (5 : ℕ) = 0) :=
  ⟨(c6_render_triggers 3 2).1, (c6_render_triggers 3 2).2.1,
    (c6_render_triggers 3 2).2.2.2 5 (by decide)⟩

/-! ## Structure of the declared tree -/

/-- The leaves of `declare_range(left, right)` hold exactly
`left, left+1, …, right-1`, in order. -/
theorem declareRangeF_leafVals (pre : String) :
    ∀ fuel left right st, 2 ≤ right - left → right - left ≤ fuel →
      leafVals (declareRangeF pre fuel left right st).1 =
        List.range' left (right - left) := by
  intro fuel
  induction fuel with
  | zero => intro l r st h1 h2; omega
  | succ fuel ih =>
    intro left right st h1 h2
    simp only [declareRangeF, leafVals]
    by_cases hL : left + (right - left) / 2 - left = 1
    · rw [if_pos hL]
      by_cases hR : right - (left + (right - left) / 2) = 1
      · rw [if_pos hR]
        simp only [leafVals]
        have ht : right - left = 2 := by omega
        have hr1 : right - 1 = left + 1 := by omega
        rw [ht, hr1]
        simp [List.range']
      · rw [if_neg hR]
        rw [ih (left + (right - left) / 2) right _ (by omega) (by omega)]
        simp only [leafVals]
        have e2 : left + (right - left) / 2 = left + 1 := by omega
        rw [e2]
        rw [show ([left] : List ℕ) = List.range' left 1 by simp,
          List.range'_append_1]
        congr 1
        omega
    · rw [if_neg hL]
      rw [ih left (left + (right - left) / 2) _ (by omega) (by omega)]
      have e2 : left + (right - left) / 2 - left = (right - left) / 2 := by
        omega
      rw [e2]
      by_cases hR : right - (left + (right - left) / 2) = 1
      · rw [if_pos hR]
        simp only [leafVals]
        have key : List.range' left ((right - left) / 2) ++
            List.range' (left + (right - left) / 2) 1 =
            List.range' left (right - left) := by
          rw [List.range'_append_1]
          congr 1
          omega
        have e3 : [right - 1] = List.range' (left + (right - left) / 2) 1 := by
          simp only [List.range'_one, List.cons.injEq, and_true]
          omega
        rw [e3]
        exact key
      · rw [if_neg hR]
        rw [ih (left + (right - left) / 2) right _ (by omega) (by omega)]
        rw [List.range'_append_1]
        congr 1
        omega

/-- Every subrange visited by `declare_range` has at least two integers,
and every visited subrange lies within the initial one. -/
theorem splitsF_sizes :
    ∀ fuel left right, 2 ≤ right - left → right - left ≤ fuel →
      ∀ pr ∈ splitsF fuel left right, 2 ≤ pr.2 - pr.1 := by
  intro fuel
  induction fuel with
  | zero => intro l r h1 h2; omega
  | succ fuel ih =>
    intro left right h1 h2 pr hpr
    simp only [splitsF, List.mem_cons, List.mem_append] at hpr
    rcases hpr with rfl | hpr
    · exact h1
    rcases hpr with hpr | hpr
    · by_cases hL : left + (right - left) / 2 - left = 1
      · rw [if_pos hL] at hpr
        cases hpr
      · rw [if_neg hL] at hpr
        exact ih left (left + (right - left) / 2) (by omega) (by omega) pr hpr
    · by_cases hR : right - (left + (right - left) / 2) = 1
      · rw [if_pos hR] at hpr
        cases hpr
      · rw [if_neg hR] at hpr
        exact ih (left + (right - left) / 2) right (by omega) (by omega) pr hpr

/-- The percentages stored by `declare_range`, in order: one per visited
subrange, computed by the source's float pipeline from
`num_left = (right - left) // 2` and `total = right - left`. -/
theorem declareRangeF_percents (pre : String) :
    ∀ fuel left right st, 2 ≤ right - left → right - left ≤ fuel →
      percents (declareRangeF pre fuel left right st).1 =
        (splitsF fuel left right).map
          (fun pr => pyPercent ((pr.2 - pr.1) / 2) (pr.2 - pr.1)) := by
  intro fuel
  induction fuel with
  | zero => intro l r st h1 h2; omega
  | succ fuel ih =>
    intro left right st h1 h2
    simp only [declareRangeF, splitsF, percents, List.map_cons, List.map_append]
    congr 1
    · have e2 : left + (right - left) / 2 - left = (right - left) / 2 := by
        omega
      rw [e2]
    by_cases hL : left + (right - left) / 2 - left = 1
    · rw [if_pos hL, if_pos hL]
      by_cases hR : right - (left + (right - left) / 2) = 1
      · rw [if_pos hR, if_pos hR]
        simp [percents]
      · rw [if_neg hR, if_neg hR]
        simp only [percents, List.nil_append, List.map_nil]
        exact ih (left + (right - left) / 2) right _ (by omega) (by omega)
    · rw [if_neg hL, if_neg hL]
      by_cases hR : right - (left + (right - left) / 2) = 1
      · rw [if_pos hR, if_pos hR]
        simp only [percents, List.append_nil, List.map_nil]
        exact ih left (left + (right - left) / 2) _ (by omega) (by omega)
      · rw [if_neg hR, if_neg hR]
        rw [ih left (left + (right - left) / 2) _ (by omega) (by omega),
          ih (left + (right - left) / 2) right _ (by omega) (by omega)]

/-- A tree has as many root-to-leaf paths as leaves. -/
theorem leafPaths_length : ∀ t, (leafPaths t).length = (leafVals t).length := by
  intro t
  induction t with
  | leaf v => rfl
  | node c l r ihl ihr => simp [leafPaths, leafVals, ihl, ihr]

/-- The root-to-leaf paths of a tree are pairwise distinct: every leaf is
reachable by exactly one path. -/
theorem leafPaths_nodup : ∀ t, (leafPaths t).Nodup := by
  intro t
  induction t with
  | leaf v => simp [leafPaths]
  | node c l r ihl ihr =>
    simp only [leafPaths]
    refine List.Nodup.append ?_ ?_ ?_
    · exact ihl.map fun a b h => by injection h
    · exact ihr.map fun a b h => by injection h
    · intro x hx hy
      simp only [List.mem_map] at hx hy
      obtain ⟨a, _, rfl⟩ := hx
      obtain ⟨b, _, hb⟩ := hy
      simp at hb

/-! ## The percentage computation: float pipeline = exact rational rounding

The split ratios are `(t/2)/t`: exactly `1/2` for even `t`, and `k/(2k+1)`
for odd `t = 2k+1`.  For `k < 50` the equality with exact rounding is a
finite computation; for `k ≥ 50` the ratio lies in `(99/200, 1/2)`, every
double that close to `1/2` rounds to the decimal `0.50`, and both sides
give 50.
-/

/-- `natLgAux` computes the floor base-two logarithm when given enough
fuel. -/
theorem natLgAux_spec :
    ∀ fuel n, 1 ≤ n → n ≤ fuel →
      2 ^ natLgAux fuel n ≤ n ∧ n < 2 ^ (natLgAux fuel n + 1) := by
  intro fuel
  induction fuel with
  | zero => intro n h1 h2; omega
  | succ fuel ih =>
    intro n h1 h2
    simp only [natLgAux]
    by_cases hn : n ≤ 1
    · rw [if_pos hn]
      constructor <;> simp <;> omega
    · rw [if_neg hn]
      have h3 := ih (n / 2) (by omega) (by omega)
      constructor
      · calc 2 ^ (natLgAux fuel (n / 2) + 1) = 2 * 2 ^ natLgAux fuel (n / 2) := by
              ring
        _ ≤ 2 * (n / 2) := by omega
        _ ≤ n := by omega
      · calc n < 2 * (n / 2) + 2 := by omega
        _ ≤ 2 * 2 ^ (natLgAux fuel (n / 2) + 1) := by omega
        _ = 2 ^ (natLgAux fuel (n / 2) + 1 + 1) := by ring

/-- `natLg` brackets its argument between consecutive powers of two. -/
theorem natLg_spec (n : ℕ) (h : 1 ≤ n) :
    2 ^ natLg n ≤ n ∧ n < 2 ^ (natLg n + 1) :=
  natLgAux_spec n n h le_rfl

/-- On `[1/4, 1/2)` the computed binary exponent is `-2`. -/
theorem qexp_eq_neg_two (q : ℚ) (h1 : 1 / 4 ≤ q) (h2 : q < 1 / 2) :
    qexp q = -2 := by
  have hq0 : 0 < q := lt_of_lt_of_le (by norm_num) h1
  have hnum : 0 < q.num := Rat.num_pos.mpr hq0
  have hden : 0 < (q.den : ℤ) := by exact_mod_cast q.den_pos
  have hqeq : (q.num : ℚ) / (q.den : ℚ) = q := Rat.num_div_den q
  -- integer bounds  den ≤ 4 num  and  2 num < den
  have hb1 : (q.den : ℤ) ≤ 4 * q.num := by
    have : (1 : ℚ) / 4 ≤ (q.num : ℚ) / (q.den : ℚ) := by rw [hqeq]; exact h1
    rw [div_le_div_iff (by norm_num) (by exact_mod_cast q.den_pos)] at this
    have : (q.den : ℚ) ≤ 4 * (q.num : ℚ) := by linarith
    exact_mod_cast this
  have hb2 : 2 * q.num < (q.den : ℤ) := by
    have : (q.num : ℚ) / (q.den : ℚ) < 1 / 2 := by rw [hqeq]; exact h2
    rw [div_lt_div_iff (by exact_mod_cast q.den_pos) (by norm_num)] at this
    have : 2 * (q.num : ℚ) < (q.den : ℚ) := by linarith
    exact_mod_cast this
  set a := q.num.toNat with ha
  have haq : (a : ℤ) = q.num := Int.toNat_of_nonneg (le_of_lt hnum)
  set b := q.den with hb
  have ha1 : 1 ≤ a := by omega
  have hb1' : b ≤ 4 * a := by omega
  have hb2' : 2 * a < b := by omega
  obtain ⟨hLa1, hLa2⟩ := natLg_spec a ha1
  obtain ⟨hLb1, hLb2⟩ := natLg_spec b (by omega)
  -- natLg b = natLg a + 1  or  natLg a + 2
  have hlt : natLg a < natLg b := by
    have hpow : 2 ^ (natLg a + 1) < 2 ^ (natLg b + 1) := by
      calc 2 ^ (natLg a + 1) = 2 * 2 ^ natLg a := by ring
      _ ≤ 2 * a := by omega
      _ < b := hb2'
      _ < 2 ^ (natLg b + 1) := hLb2
    have := (Nat.pow_lt_pow_iff_right (by norm_num : 1 < 2)).mp hpow
    omega
  have hle : natLg b ≤ natLg a + 2 := by
    have hpow : 2 ^ natLg b < 2 ^ (natLg a + 3) := by
      calc 2 ^ natLg b ≤ b := hLb1
      _ ≤ 4 * a := hb1'
      _ < 4 * 2 ^ (natLg a + 1) := by omega
      _ = 2 ^ (natLg a + 3) := by ring
    have := (Nat.pow_lt_pow_iff_right (a := 2) (by norm_num)).mp hpow
    omega
  -- the candidate exponent
  have he0 : ((natLg a : ℤ) - (natLg b : ℤ) = -1 ∧ natLg b = natLg a + 1) ∨
      ((natLg a : ℤ) - (natLg b : ℤ) = -2 ∧ natLg b = natLg a + 2) := by
    omega
  show (if pow2z ((natLg q.num.toNat : ℤ) - (natLg q.den : ℤ)) ≤ q
      then (natLg q.num.toNat : ℤ) - (natLg q.den : ℤ)
      else (natLg q.num.toNat : ℤ) - (natLg q.den : ℤ) - 1) = -2
  rcases he0 with ⟨he, _⟩ | ⟨he, _⟩
  · rw [show (natLg q.num.toNat : ℤ) - (natLg q.den : ℤ) = -1 from he]
    rw [if_neg]
    · norm_num
    · rw [show pow2z (-1) = 1 / 2 by decide]
      exact not_le.mpr h2
  · rw [show (natLg q.num.toNat : ℤ) - (natLg q.den : ℤ) = -2 from he]
    rw [if_pos]
    rw [show pow2z (-2) = 1 / 4 by decide]
    exact h1

/-- Round-half-to-even differs from its argument by at most one half. -/
theorem rhe_bounds (q : ℚ) :
    q - 1 / 2 ≤ (rhe q : ℚ) ∧ (rhe q : ℚ) ≤ q + 1 / 2 := by
  have hfl : (q.floor : ℚ) ≤ q := by
    rw [ratFloor_eq_intFloor]; exact Int.floor_le q
  have hfu : q < (q.floor : ℚ) + 1 := by
    rw [ratFloor_eq_intFloor]; exact Int.lt_floor_add_one q
  simp only [rhe]
  split_ifs with hc1 hc2 hc3 <;> push_cast <;> constructor <;> linarith

/-- On `[1/4, 1/2)` the double rounding of `q` stays within `2⁻⁵⁵` of `q`
and never exceeds `1/2`. -/
theorem fl_quarter_half (q : ℚ) (h1 : 1 / 4 ≤ q) (h2 : q < 1 / 2) :
    q - 1 / 2 ^ 55 ≤ fl q ∧ fl q ≤ q + 1 / 2 ^ 55 ∧ fl q ≤ 1 / 2 := by
  have hq0 : 0 < q := lt_of_lt_of_le (by norm_num) h1
  have hqe := qexp_eq_neg_two q h1 h2
  have hfl : fl q = (rhe (q * 2 ^ 54) : ℚ) / 2 ^ 54 := by
    rw [fl, if_neg (not_le.mpr hq0), hqe]
    rw [show (52 : ℤ) - -2 = 54 by norm_num, show (-2 : ℤ) - 52 = -54 by norm_num]
    rw [show pow2z 54 = (2 ^ 54 : ℚ) by decide,
      show pow2z (-54) = ((2 ^ 54 : ℚ))⁻¹ by decide]
    rw [div_eq_mul_inv]
  have hpos : (0 : ℚ) < 2 ^ 54 := by positivity
  have hq54 : q * 2 ^ 54 < 2 ^ 53 := by
    have := mul_lt_mul_of_pos_right h2 hpos
    have e : (1 : ℚ) / 2 * 2 ^ 54 = 2 ^ 53 := by norm_num
    linarith
  obtain ⟨hr1, hr2⟩ := rhe_bounds (q * 2 ^ 54)
  rw [hfl]
  revert hr1 hr2
  generalize rhe (q * 2 ^ 54) = R
  intro hr1 hr2
  have key : (R : ℚ) ≤ 2 ^ 53 := by
    have hi : (R : ℚ) < 2 ^ 53 + 1 := by linarith
    have hz : R < 2 ^ 53 + 1 := by exact_mod_cast hi
    have hz2 : R ≤ 2 ^ 53 := Int.lt_add_one_iff.mp hz
    exact_mod_cast hz2
  refine ⟨?_, ?_, ?_⟩
  · rw [le_div_iff hpos]
    have e : (q - 1 / 2 ^ 55) * 2 ^ 54 = q * 2 ^ 54 - 1 / 2 := by ring
    rw [e]
    linarith
  · rw [div_le_iff hpos]
    have e : (q + 1 / 2 ^ 55) * 2 ^ 54 = q * 2 ^ 54 + 1 / 2 := by ring
    rw [e]
    linarith
  · rw [div_le_iff hpos]
    have e : (1 : ℚ) / 2 * 2 ^ 54 = 2 ^ 53 := by norm_num
    rw [e]
    exact key

/-- Any value in `(99/2, 50]` rounds to `50`. -/
theorem rhe_near_fifty (x : ℚ) (h1 : 99 / 2 < x) (h2 : x ≤ 50) :
    rhe x = 50 := by
  rcases eq_or_lt_of_le h2 with rfl | hlt
  · decide
  · have hf : ⌊x⌋ = 49 := by
      rw [Int.floor_eq_iff]
      constructor
      · push_cast
        linarith
      · push_cast
        linarith
    simp only [rhe]
    rw [ratFloor_eq_intFloor, hf]
    rw [if_neg (by push_cast; linarith), if_pos (by push_cast; linarith)]
    norm_num

/-- The float pipeline at ratio `k/(2k+1)` for `k ≥ 50`: the double is
within `2⁻⁵⁵` of the ratio, hence in `(0.495, 0.5]`, so `round(·, 2)`
produces `0.50` and the result is 50. -/
theorem pyPercent_odd_large (k : ℕ) (hk : 50 ≤ k) :
    pyPercent k (2 * k + 1) = 50 := by
  have hden : (0 : ℚ) < ((2 * k + 1 : ℕ) : ℚ) := by positivity
  set q : ℚ := (k : ℚ) / ((2 * k + 1 : ℕ) : ℚ) with hq
  have hcast : ((2 * k + 1 : ℕ) : ℚ) = 2 * (k : ℚ) + 1 := by push_cast; ring
  have hk50 : (50 : ℚ) ≤ (k : ℚ) := by exact_mod_cast hk
  have hq1 : 50 / 101 ≤ q := by
    rw [hq, le_div_iff hden, hcast]
    nlinarith
  have hq2 : q < 1 / 2 := by
    rw [hq, div_lt_iff hden, hcast]
    nlinarith
  have hq3 : 1 / 4 ≤ q := by linarith [hq1]
  obtain ⟨hf1, hf2, hf3⟩ := fl_quarter_half q hq3 hq2
  have hy1 : 99 / 200 < fl q := by
    have : (99 : ℚ) / 200 + 1 / 2 ^ 55 < 50 / 101 := by norm_num
    linarith
  -- round(fl q, 2) = 0.50
  have hrhe : rhe (fl q * 100) = 50 := by
    refine rhe_near_fifty _ ?_ ?_
    · nlinarith
    · nlinarith
  show pyInt (fl (100 * pyRound2 (fl q))) = 50
  rw [pyRound2, hrhe]
  rw [show ((50 : ℤ) : ℚ) / 100 = (1 : ℚ) / 2 by norm_num]
  rw [show fl ((1 : ℚ) / 2) = 1 / 2 by decide]
  rw [show (100 : ℚ) * (1 / 2) = 50 by norm_num]
  rw [show fl (50 : ℚ) = 50 by decide]
  decide

/-- The float pipeline at the even-split ratio `m/(2m)` gives exactly 50. -/
theorem pyPercent_even (m : ℕ) (hm : 1 ≤ m) : pyPercent m (2 * m) = 50 := by
  have hm0 : ((2 * m : ℕ) : ℚ) ≠ 0 := by positivity
  have hhalf : (m : ℚ) / ((2 * m : ℕ) : ℚ) = 1 / 2 := by
    rw [div_eq_div_iff hm0 (by norm_num)]
    push_cast
    ring
  show pyInt (fl (100 * pyRound2 (fl ((m : ℚ) / ((2 * m : ℕ) : ℚ))))) = 50
  rw [hhalf]
  decide

/-- The float pipeline for odd totals below 100: a finite computation. -/
theorem pyPercent_odd_small :
    ∀ k : ℕ, k < 50 → 1 ≤ k →
      pyPercent k (2 * k + 1) = qround ((100 * k : ℚ) / (2 * k + 1)) := by
  decide

/-- Exact rounding of `100k/(2k+1)` is 50 for all `k ≥ 50`. -/
theorem qround_odd_large (k : ℕ) (hk : 50 ≤ k) :
    qround ((100 * k : ℚ) / (2 * (k : ℚ) + 1)) = 50 := by
  have hden : (0 : ℚ) < 2 * (k : ℚ) + 1 := by positivity
  have hk50 : (50 : ℚ) ≤ (k : ℚ) := by exact_mod_cast hk
  rw [qround_eq_round, round_eq, Int.floor_eq_iff]
  have h1 : (99 : ℚ) / 2 ≤ 100 * (k : ℚ) / (2 * (k : ℚ) + 1) := by
    rw [div_le_div_iff (by norm_num) hden]
    nlinarith
  have h2 : 100 * (k : ℚ) / (2 * (k : ℚ) + 1) < 50 := by
    rw [div_lt_iff hden]
    nlinarith
  constructor
  · push_cast
    linarith
  · push_cast
    linarith

/-- The master lemma: for every subrange size `t ≥ 2`, the source's float
computation of the split percentage agrees with exact rational rounding of
`100 * num_left / (num_left + num_right)`. -/
theorem percent_master (t : ℕ) (h : 2 ≤ t) :
    pyPercent (t / 2) t = specPercent (t / 2) (t - t / 2) := by
  rcases Nat.even_or_odd t with ⟨m, hm⟩ | ⟨k, hk⟩
  · have hm1 : 1 ≤ m := by omega
    have e1 : t / 2 = m := by omega
    have e2 : t - t / 2 = m := by omega
    rw [e2, e1, show t = 2 * m by omega, pyPercent_even m hm1]
    unfold specPercent
    have hm0 : (m : ℚ) ≠ 0 := by positivity
    have harg : (100 * (m : ℚ)) / ((m : ℚ) + (m : ℚ)) = ((50 : ℤ) : ℚ) := by
      field_simp
      ring
    rw [harg, round_intCast]
  · have hk1 : 1 ≤ k := by omega
    have e1 : t / 2 = k := by omega
    have e2 : t - t / 2 = k + 1 := by omega
    have ecast : ((k : ℚ) + ((k + 1 : ℕ) : ℚ)) = 2 * (k : ℚ) + 1 := by
      push_cast
      ring
    rw [e2, e1, show t = 2 * k + 1 by omega]
    unfold specPercent
    rw [ecast]
    by_cases hsmall : k < 50
    · rw [pyPercent_odd_small k hsmall hk1, qround_eq_round]
    · rw [pyPercent_odd_large k (by omega),
        ← qround_odd_large k (by omega), qround_eq_round]

/-- Every computed split percentage lies in `[0, 100]`. -/
theorem percent_range (t : ℕ) (h : 2 ≤ t) :
    0 ≤ pyPercent (t / 2) t ∧ pyPercent (t / 2) t ≤ 100 := by
  rw [percent_master t h]
  unfold specPercent
  have hsum : ((t / 2 : ℕ) : ℚ) + ((t - t / 2 : ℕ) : ℚ) = (t : ℚ) := by
    push_cast [Nat.cast_sub (Nat.div_le_self t 2)]
    ring
  have hd : (0 : ℚ) < ((t / 2 : ℕ) : ℚ) + ((t - t / 2 : ℕ) : ℚ) := by
    rw [hsum]
    have : (0 : ℕ) < t := by omega
    exact_mod_cast this
  have hx0 : (0 : ℚ) ≤ (100 * ((t / 2 : ℕ) : ℚ)) /
      (((t / 2 : ℕ) : ℚ) + ((t - t / 2 : ℕ) : ℚ)) := by positivity
  have hx100 : (100 * ((t / 2 : ℕ) : ℚ)) /
      (((t / 2 : ℕ) : ℚ) + ((t - t / 2 : ℕ) : ℚ)) ≤ 100 := by
    rw [div_le_iff hd]
    have h1 : ((t / 2 : ℕ) : ℚ) ≤ ((t / 2 : ℕ) : ℚ) + ((t - t / 2 : ℕ) : ℚ) :=
      le_add_of_nonneg_right (by positivity)
    nlinarith
  rw [round_eq]
  constructor
  · refine Int.le_floor.mpr ?_
    push_cast
    linarith
  · have hlt : ⌊(100 * ((t / 2 : ℕ) : ℚ)) /
        (((t / 2 : ℕ) : ℚ) + ((t - t / 2 : ℕ) : ℚ)) + 1 / 2⌋ < 101 := by
      refine Int.floor_lt.mpr ?_
      push_cast
      linarith
    omega

/-! ## Claims C1 and C3 -/

/-- C1: for every bound `n ≥ 1`, the tree returned by
`_declare_prob_tree(tmgr, n)` has exactly `n+1` leaves; the leaf values are
exactly `{0, 1, …, n}` with no duplicates and no omissions; every leaf is
reachable by exactly one root-to-leaf path (the paths are in bijection with
the leaves and pairwise distinct); and every internal node's `ChanceNode`
percentage lies in `[0, 100]`. -/
theorem c1_tree_shape (pre : Option String) (n : ℤ) (hn : 1 ≤ n)
    (tm : List Trigger) (t : ProbTree)
    (ht : (declareProbTree pre n tm).1 = .ok t) :
    (leafVals t).length = n.toNat + 1 ∧
    leafVals t = List.range (n.toNat + 1) ∧
    (leafPaths t).length = n.toNat + 1 ∧
    (leafPaths t).Nodup ∧
    ∀ p ∈ percents t, 0 ≤ p ∧ p ≤ 100 := by
  unfold declareProbTree at ht
  rw [if_neg (not_lt.mpr hn)] at ht
  simp only [Except.ok.injEq] at ht
  have hn' : 1 ≤ n.toNat := by omega
  have hlv : leafVals t = List.range' 0 (n.toNat + 1) := by
    rw [← ht]
    have := declareRangeF_leafVals (namePreFor pre n)
      (n.toNat + 1) 0 (n.toNat + 1) (tm, 0) (by omega) (by omega)
    simpa using this
  have hrange : leafVals t = List.range (n.toNat + 1) := by
    rw [hlv, List.range_eq_range']
  have hlen : (leafVals t).length = n.toNat + 1 := by
    rw [hrange, List.length_range]
  refine ⟨hlen, hrange, ?_, leafPaths_nodup t, ?_⟩
  · rw [leafPaths_length, hlen]
  · intro p hp
    have hpc : percents t =
        (splitsF (n.toNat + 1) 0 (n.toNat + 1)).map
          (fun pr => pyPercent ((pr.2 - pr.1) / 2) (pr.2 - pr.1)) := by
      rw [← ht]
      have := declareRangeF_percents (namePreFor pre n)
        (n.toNat + 1) 0 (n.toNat + 1) (tm, 0) (by omega) (by omega)
      simpa using this
    rw [hpc] at hp
    simp only [List.mem_map] at hp
    obtain ⟨pr, hpr, rfl⟩ := hp
    have hsz := splitsF_sizes (n.toNat + 1) 0 (n.toNat + 1)
      (by omega) (by omega) pr hpr
    exact percent_range (pr.2 - pr.1) hsz

/-- Witness for C1 at `n = 2` and its concrete tree. -/
theorem c1_tree_shape_witness :
    (1 : ℤ) ≤ 2 ∧
    ((leafVals (.node ⟨33, 0, 1⟩ (.leaf 0)
          (.node ⟨50, 2, 3⟩ (.leaf 1) (.leaf 2)))).length = 3 ∧
      leafVals (.node ⟨33, 0, 1⟩ (.leaf 0)
          (.node ⟨50, 2, 3⟩ (.leaf 1) (.leaf 2))) = List.range 3 ∧
      (leafPaths (.node ⟨33, 0, 1⟩ (.leaf 0)
          (.node ⟨50, 2, 3⟩ (.leaf 1) (.leaf 2)))).length = 3 ∧
      (leafPaths (.node ⟨33, 0, 1⟩ (.leaf 0)
          (.node ⟨50, 2, 3⟩ (.leaf 1) (.leaf 2)))).Nodup ∧
      ∀ p ∈ percents (.node ⟨33, 0, 1⟩ (.leaf 0)
          (.node ⟨50, 2, 3⟩ (.leaf 1) (.leaf 2))), 0 ≤ p ∧ p ≤ 100) :=
  ⟨by norm_num,
    c1_tree_shape none 2 (by norm_num) []
      (.node ⟨33, 0, 1⟩ (.leaf 0) (.node ⟨50, 2, 3⟩ (.leaf 1) (.leaf 2)))
      (by rfl)⟩

/-- C3: for every bound `n ≥ 1`, the integer success percentage stored at
each internal split of `_declare_prob_tree` over subrange `[left, right)`
— computed by the code as `int(100.0 * round(num_left / total, 2))` over
binary64 floats — equals `round(100 * num_left / (num_left + num_right))`
rounded to the nearest integer with exact rational arithmetic. -/
theorem c3_percent_exact_rounding (pre : Option String) (n : ℤ) (hn : 1 ≤ n)
    (tm : List Trigger) (t : ProbTree)
    (ht : (declareProbTree pre n tm).1 = .ok t) :
    percents t =
      (splitsF (n.toNat + 1) 0 (n.toNat + 1)).map
        (fun pr => pyPercent ((pr.2 - pr.1) / 2) (pr.2 - pr.1)) ∧
    ∀ pr ∈ splitsF (n.toNat + 1) 0 (n.toNat + 1),
      pyPercent ((pr.2 - pr.1) / 2) (pr.2 - pr.1) =
        specPercent ((pr.2 - pr.1) / 2) ((pr.2 - pr.1) - (pr.2 - pr.1) / 2) := by
  unfold declareProbTree at ht
  rw [if_neg (not_lt.mpr hn)] at ht
  simp only [Except.ok.injEq] at ht
  have hn' : 1 ≤ n.toNat := by omega
  constructor
  · rw [← ht]
    have := declareRangeF_percents (namePreFor pre n)
      (n.toNat + 1) 0 (n.toNat + 1) (tm, 0) (by omega) (by omega)
    simpa using this
  · intro pr hpr
    have hsz := splitsF_sizes (n.toNat + 1) 0 (n.toNat + 1)
      (by omega) (by omega) pr hpr
    exact percent_master (pr.2 - pr.1) hsz

/-- Witness for C3 at `n = 1`: the single split `[0, 2)` stores
`pyPercent 1 2`, which equals the exactly rounded 50 percent. -/
theorem c3_percent_exact_rounding_witness :
    percents (.node ⟨50, 0, 1⟩ (.leaf 0) (.leaf 1)) =
      (splitsF 2 0 2).map
        (fun pr => pyPercent ((pr.2 - pr.1) / 2) (pr.2 - pr.1)) ∧
    pyPercent ((2 - 0) / 2) (2 - 0) =
      specPercent ((2 - 0) / 2) ((2 - 0) - (2 - 0) / 2) :=
  ⟨(c3_percent_exact_rounding none 1 (by norm_num) []
      (.node ⟨50, 0, 1⟩ (.leaf 0) (.leaf 1)) (by rfl)).1,
    (c3_percent_exact_rounding none 1 (by norm_num) []
      (.node ⟨50, 0, 1⟩ (.leaf 0) (.leaf 1)) (by rfl)).2 (0, 2) (by decide)⟩

/-! ## Claim C4: the leaf swap effects of `_impl_rand_tree` -/

/-- `updAt` at one index leaves every other index unchanged. -/
theorem updAt_get_ne :
    ∀ (tm : List Trigger) (n j : ℕ) (f : Trigger → Trigger), j ≠ n →
      (updAt tm n f)[j]? = tm[j]? := by
  intro tm
  induction tm with
  | nil => intro n j f _; rfl
  | cons t ts ih =>
    intro n j f h
    cases n with
    | zero =>
      cases j with
      | zero => exact absurd rfl h
      | succ i => simp [updAt]
    | succ m =>
      cases j with
      | zero => simp [updAt]
      | succ i => simpa [updAt] using ih m i f (by omega)

/-- `updAt` rewrites the stored trigger at its index. -/
theorem updAt_get_eq :
    ∀ (tm : List Trigger) (n : ℕ) (f : Trigger → Trigger) (tr : Trigger),
      tm[n]? = some tr → (updAt tm n f)[n]? = some (f tr) := by
  intro tm
  induction tm with
  | nil => intro n f tr h; simp at h
  | cons t ts ih =>
    intro n f tr h
    cases n with
    | zero =>
      simp only [List.getElem?_cons_zero, Option.some.injEq] at h
      subst h
      simp [updAt]
    | succ m =>
      simpa [updAt] using ih m f tr (by simpa using h)

/-- `add_effect` on one trigger leaves the others unchanged. -/
theorem addEffAt_get_ne (tm : List Trigger) (tid j : ℕ) (e : Eff)
    (h : j ≠ tid) : (addEffAt tm tid e)[j]? = tm[j]? :=
  updAt_get_ne tm tid j _ h

/-- `add_effect` appends to the addressed trigger's effect list. -/
theorem addEffAt_get_eq (tm : List Trigger) (tid : ℕ) (e : Eff) (tr : Trigger)
    (h : tm[tid]? = some tr) :
    (addEffAt tm tid e)[tid]? =
      some ⟨tr.name, tr.enabled, tr.looping, tr.conditions,
        tr.effects ++ [e]⟩ :=
  updAt_get_eq tm tid _ tr h

/-- `add_condition` on one trigger leaves the others unchanged. -/
theorem addCondAt_get_ne (tm : List Trigger) (tid j : ℕ) (c : Cond)
    (h : j ≠ tid) : (addCondAt tm tid c)[j]? = tm[j]? :=
  updAt_get_ne tm tid j _ h

/-- `add_condition` appends to the addressed trigger's condition list. -/
theorem addCondAt_get_eq (tm : List Trigger) (tid : ℕ) (c : Cond)
    (tr : Trigger) (h : tm[tid]? = some tr) :
    (addCondAt tm tid c)[tid]? =
      some ⟨tr.name, tr.enabled, tr.looping, tr.conditions ++ [c],
        tr.effects⟩ :=
  updAt_get_eq tm tid _ tr h

/-- `wireChild` touches only the trigger it wires. -/
theorem wireChild_frame (st : WState) (sid tid : ℕ) (ch : ProbTree) (j : ℕ)
    (h : j ≠ tid) : (wireChild st sid tid ch).tm[j]? = st.tm[j]? := by
  cases ch with
  | leaf k =>
    by_cases hk : k ≠ 0
    · simp only [wireChild, if_pos hk]
      rw [addEffAt_get_ne _ _ _ _ h, addEffAt_get_ne _ _ _ _ h]
    · simp only [wireChild, if_neg hk]
      rw [addEffAt_get_ne _ _ _ _ h]
  | node c a b =>
    simp only [wireChild]
    rw [addEffAt_get_ne _ _ _ _ h, addEffAt_get_ne _ _ _ _ h,
      addEffAt_get_ne _ _ _ _ h]

/-- `wireChild` appends exactly the `ChildSuffix` effects to the wired
trigger, leaving its conditions alone. -/
theorem wireChild_get (st : WState) (sid tid : ℕ) (ch : ProbTree)
    (tr : Trigger) (h : st.tm[tid]? = some tr) :
    ∃ tr', (wireChild st sid tid ch).tm[tid]? = some tr' ∧
      tr'.conditions = tr.conditions ∧
      ∃ effs, tr'.effects = tr.effects ++ effs ∧ ChildSuffix sid ch effs := by
  cases ch with
  | leaf k =>
    cases k with
    | zero =>
      simp only [wireChild, if_neg (by norm_num : ¬ (0 : ℕ) ≠ 0)]
      exact ⟨_, addEffAt_get_eq _ _ _ _ h, rfl, [.deactivate sid], rfl, rfl⟩
    | succ m =>
      simp only [wireChild, if_pos (by omega : (m + 1 : ℕ) ≠ 0)]
      refine ⟨_, addEffAt_get_eq _ _ _ _ (addEffAt_get_eq _ _ _ _ h), rfl,
        [.deactivate sid,
          .scriptCall (swapMsg (st.swapCount + 1) (varId 0) (varId (m + 1)))],
        ?_, ?_⟩
      · simp
      · exact ⟨st.swapCount + 1, rfl⟩
  | node c a b =>
    simp only [wireChild]
    refine ⟨_,
      addEffAt_get_eq _ _ _ _
        (addEffAt_get_eq _ _ _ _ (addEffAt_get_eq _ _ _ _ h)), rfl,
      [.deactivate sid, .activate c.success, .activate c.failure], ?_, rfl⟩
    simp

/-- The worklist recursion, written as one equation: the node is processed,
then the right subtree (popped first), then the left. -/
theorem implNode_node (st : WState) (c : ChanceNode) (l r : ProbTree) :
    implNode st (.node c l r) =
      implNode
        (implNode
          (wireChild
            (wireChild
              ⟨addCondAt st.tm c.success (.chance c.percent), st.swapCount⟩
              c.success c.success l)
            c.success c.failure r)
          r)
        l := by
  cases l <;> cases r <;> rfl

/-- `implNode` modifies only triggers whose ids occur in the tree. -/
theorem implNode_frame :
    ∀ (t : ProbTree) (st : WState) (j : ℕ), j ∉ treeIds t →
      (implNode st t).tm[j]? = st.tm[j]? := by
  intro t
  induction t with
  | leaf v => intro st j _; rfl
  | node c l r ihl ihr =>
    intro st j h
    simp only [treeIds, List.mem_cons, List.mem_append] at h
    push_neg at h
    obtain ⟨hjs, hjf, hjl, hjr⟩ := h
    rw [implNode_node, ihl _ _ hjl, ihr _ _ hjr,
      wireChild_frame _ _ _ _ _ hjf, wireChild_frame _ _ _ _ _ hjs]
    exact addCondAt_get_ne _ _ _ _ hjs

/-- An internal node's trigger ids occur among the tree's ids. -/
theorem internals_treeIds :
    ∀ (u : ProbTree) (cn : ChanceNode) (l r : ProbTree),
      (cn, l, r) ∈ internals u →
        cn.success ∈ treeIds u ∧ cn.failure ∈ treeIds u := by
  intro u
  induction u with
  | leaf v => intro cn l r h; simp [internals] at h
  | node c L R ihl ihr =>
    intro cn l r h
    simp only [internals, List.mem_cons, List.mem_append] at h
    simp only [treeIds, List.mem_cons, List.mem_append]
    rcases h with heq | h | h
    · rw [Prod.mk.injEq, Prod.mk.injEq] at heq
      obtain ⟨hc, _, _⟩ := heq
      subst hc
      exact ⟨Or.inl rfl, Or.inr (Or.inl rfl)⟩
    · obtain ⟨h1, h2⟩ := ihl cn l r h
      exact ⟨Or.inr (Or.inr (Or.inl h1)), Or.inr (Or.inr (Or.inl h2))⟩
    · obtain ⟨h1, h2⟩ := ihr cn l r h
      exact ⟨Or.inr (Or.inr (Or.inr h1)), Or.inr (Or.inr (Or.inr h2))⟩

/-- The main wiring characterization: on a tree with pairwise-distinct
trigger ids pointing at triggers with empty effect lists, `implNode` gives
every split's success trigger the effects `ChildSuffix` of its left child
and every split's failure trigger the effects `ChildSuffix` of its right
child — both suffixes deactivating the split's SUCCESS trigger, as the
source does. -/
theorem implNode_wiring :
    ∀ (t : ProbTree) (st : WState),
      (treeIds t).Nodup →
      (∀ id ∈ treeIds t, ∃ tr, st.tm[id]? = some tr ∧ tr.effects = []) →
      ∀ cn l r, (cn, l, r) ∈ internals t →
        (∃ tr, (implNode st t).tm[cn.success]? = some tr ∧
          ChildSuffix cn.success l tr.effects) ∧
        (∃ tr, (implNode st t).tm[cn.failure]? = some tr ∧
          ChildSuffix cn.success r tr.effects) := by
  intro t
  induction t with
  | leaf v => intro st _ _ cn l r h; simp [internals] at h
  | node c L R ihL ihR =>
    intro st hnd hfresh cn l r hmem
    have hndtail := (List.nodup_cons.mp hnd).2
    have hsmem : c.success ∉ c.failure :: (treeIds L ++ treeIds R) :=
      (List.nodup_cons.mp hnd).1
    have hfmem : c.failure ∉ treeIds L ++ treeIds R :=
      (List.nodup_cons.mp hndtail).1
    have hndLR := (List.nodup_cons.mp hndtail).2
    have hndL : (treeIds L).Nodup := (List.nodup_append.mp hndLR).1
    have hndR : (treeIds R).Nodup := (List.nodup_append.mp hndLR).2.1
    have hdisj : (treeIds L).Disjoint (treeIds R) :=
      (List.nodup_append.mp hndLR).2.2
    have hsf : c.success ≠ c.failure := by
      intro h
      exact hsmem (h ▸ List.mem_cons_self _ _)
    have hsL : c.success ∉ treeIds L := fun h =>
      hsmem (List.mem_cons_of_mem _ (List.mem_append_left _ h))
    have hsR : c.success ∉ treeIds R := fun h =>
      hsmem (List.mem_cons_of_mem _ (List.mem_append_right _ h))
    have hfL : c.failure ∉ treeIds L := fun h =>
      hfmem (List.mem_append_left _ h)
    have hfR : c.failure ∉ treeIds R := fun h =>
      hfmem (List.mem_append_right _ h)
    rw [implNode_node]
    simp only [internals, List.mem_cons, List.mem_append] at hmem
    rcases hmem with heq | hmem | hmem
    · -- the root split itself
      rw [Prod.mk.injEq, Prod.mk.injEq] at heq
      obtain ⟨hc, hl, hr⟩ := heq
      subst hc
      subst hl
      subst hr
      constructor
      · obtain ⟨tr0, hget0, heff0⟩ :=
          hfresh cn.success (by simp [treeIds])
        have h1 := addCondAt_get_eq st.tm cn.success (.chance cn.percent)
          tr0 hget0
        obtain ⟨tr2, hget2, _, effs, heffs2, hsuf⟩ :=
          wireChild_get
            ⟨addCondAt st.tm cn.success (.chance cn.percent), st.swapCount⟩
            cn.success cn.success l _ h1
        refine ⟨tr2, ?_, ?_⟩
        · rw [implNode_frame l _ _ hsL, implNode_frame r _ _ hsR,
            wireChild_frame _ _ _ _ _ hsf]
          exact hget2
        · rw [heffs2]
          simpa [heff0] using hsuf
      · obtain ⟨tr0, hget0, heff0⟩ :=
          hfresh cn.failure (by simp [treeIds])
        have h1 : (addCondAt st.tm cn.success
            (.chance cn.percent))[cn.failure]? = some tr0 := by
          rw [addCondAt_get_ne _ _ _ _ (Ne.symm hsf)]
          exact hget0
        have h2 : (wireChild
            ⟨addCondAt st.tm cn.success (.chance cn.percent), st.swapCount⟩
            cn.success cn.success l).tm[cn.failure]? = some tr0 := by
          rw [wireChild_frame _ _ _ _ _ (Ne.symm hsf)]
          exact h1
        obtain ⟨tr2, hget2, _, effs, heffs2, hsuf⟩ :=
          wireChild_get _ cn.success cn.failure r _ h2
        refine ⟨tr2, ?_, ?_⟩
        · rw [implNode_frame l _ _ hfL, implNode_frame r _ _ hfR]
          exact hget2
        · rw [heffs2]
          simpa [heff0] using hsuf
    · -- a split inside the left subtree
      refine ihL _ hndL ?_ cn l r hmem
      intro id hid
      have hidS : id ≠ c.success := fun h => hsL (h ▸ hid)
      have hidF : id ≠ c.failure := fun h => hfL (h ▸ hid)
      have hidR : id ∉ treeIds R := fun h => hdisj hid h
      obtain ⟨tr, hget, heff⟩ := hfresh id
        (List.mem_cons_of_mem _ (List.mem_cons_of_mem _
          (List.mem_append_left _ hid)))
      refine ⟨tr, ?_, heff⟩
      rw [implNode_frame R _ _ hidR, wireChild_frame _ _ _ _ _ hidF,
        wireChild_frame _ _ _ _ _ hidS]
      rw [addCondAt_get_ne _ _ _ _ hidS]
      exact hget
    · -- a split inside the right subtree
      have hmain := ihR
        (wireChild
          (wireChild
            ⟨addCondAt st.tm c.success (.chance c.percent), st.swapCount⟩
            c.success c.success L)
          c.success c.failure R)
        hndR ?_ cn l r hmem
      · obtain ⟨hcnS, hcnF⟩ := internals_treeIds R cn l r hmem
        have hSL : cn.success ∉ treeIds L := fun h => hdisj h hcnS
        have hFL : cn.failure ∉ treeIds L := fun h => hdisj h hcnF
        obtain ⟨⟨trS, hgS, hcS⟩, ⟨trF, hgF, hcF⟩⟩ := hmain
        exact ⟨⟨trS, by rw [implNode_frame L _ _ hSL]; exact hgS, hcS⟩,
          ⟨trF, by rw [implNode_frame L _ _ hFL]; exact hgF, hcF⟩⟩
      · intro id hid
        have hidS : id ≠ c.success := fun h => hsR (h ▸ hid)
        have hidF : id ≠ c.failure := fun h => hfR (h ▸ hid)
        obtain ⟨tr, hget, heff⟩ := hfresh id
          (List.mem_cons_of_mem _ (List.mem_cons_of_mem _
            (List.mem_append_right _ hid)))
        refine ⟨tr, ?_, heff⟩
        rw [wireChild_frame _ _ _ _ _ hidF, wireChild_frame _ _ _ _ _ hidS]
        rw [addCondAt_get_ne _ _ _ _ hidS]
        exact hget

/-- Unfolding two steps of `range'`. -/
theorem range'_two (s n : ℕ) :
    List.range' s (n + 2) = s :: (s + 1) :: List.range' (s + 2) n := by
  rw [show n + 2 = (n + 1) + 1 from rfl, List.range'_succ, List.range'_succ,
    show s + 1 + 1 = s + 2 by omega]

/-- `declare_range` appends its triggers to the manager; the tree's
internal ids are exactly the indices of the appended block, in ascending
order, and every appended trigger starts with empty condition and effect
lists. -/
theorem declareRangeF_ids (pre : String) :
    ∀ fuel left right (st : List Trigger × ℕ), 2 ≤ right - left →
      right - left ≤ fuel →
      ∃ d : List Trigger,
        (declareRangeF pre fuel left right st).2.1 = st.1 ++ d ∧
        treeIds (declareRangeF pre fuel left right st).1 =
          List.range' st.1.length d.length ∧
        ∀ tr ∈ d, tr.conditions = [] ∧ tr.effects = [] := by
  intro fuel
  induction fuel with
  | zero => intro l r st h1 h2; omega
  | succ fuel ih =>
    intro left right st h1 h2
    simp only [declareRangeF, addTrigger]
    set T1 : Trigger :=
      ⟨pre ++ " " ++ String.singleton (Char.ofNat (97 + st.2)) ++
        " success", false, false, [], []⟩ with hT1
    set T2 : Trigger :=
      ⟨pre ++ " " ++ String.singleton (Char.ofNat (97 + st.2 + 1)) ++
        " failure", false, false, [], []⟩ with hT2
    have hprops : ∀ tr ∈ [T1, T2], tr.conditions = [] ∧ tr.effects = [] := by
      intro tr htr
      simp only [List.mem_cons, List.not_mem_nil, or_false] at htr
      rcases htr with rfl | rfl
      · exact ⟨rfl, rfl⟩
      · exact ⟨rfl, rfl⟩
    by_cases hL : left + (right - left) / 2 - left = 1
    · rw [if_pos hL]
      by_cases hR : right - (left + (right - left) / 2) = 1
      · rw [if_pos hR]
        refine ⟨[T1, T2], by simp, ?_, hprops⟩
        simp [treeIds, List.range']
      · rw [if_neg hR]
        obtain ⟨dr, hdr1, hdr2, hdr3⟩ := ih (left + (right - left) / 2) right
          ((st.1 ++ [T1]) ++ [T2], st.2 + 2) (by omega) (by omega)
        refine ⟨[T1, T2] ++ dr, ?_, ?_, ?_⟩
        · rw [hdr1]
          simp
        · have e1 : ((st.1 ++ [T1]) ++ [T2]).length = st.1.length + 2 := by
            simp
          rw [e1] at hdr2
          simp only [treeIds, hdr2, List.nil_append]
          rw [show ([T1, T2] ++ dr).length = dr.length + 2 by simp,
            range'_two]
          simp
        · intro tr htr
          rcases List.mem_append.mp htr with h | h
          · exact hprops tr h
          · exact hdr3 tr h
    · rw [if_neg hL]
      obtain ⟨dl, hdl1, hdl2, hdl3⟩ := ih left (left + (right - left) / 2)
        ((st.1 ++ [T1]) ++ [T2], st.2 + 2) (by omega) (by omega)
      by_cases hR : right - (left + (right - left) / 2) = 1
      · rw [if_pos hR]
        refine ⟨[T1, T2] ++ dl, ?_, ?_, ?_⟩
        · rw [hdl1]
          simp
        · have e1 : ((st.1 ++ [T1]) ++ [T2]).length = st.1.length + 2 := by
            simp
          rw [e1] at hdl2
          simp only [treeIds, hdl2, List.append_nil]
          rw [show ([T1, T2] ++ dl).length = dl.length + 2 by simp,
            range'_two]
          simp
        · intro tr htr
          rcases List.mem_append.mp htr with h | h
          · exact hprops tr h
          · exact hdl3 tr h
      · rw [if_neg hR]
        obtain ⟨dr, hdr1, hdr2, hdr3⟩ := ih (left + (right - left) / 2) right
          (declareRangeF pre fuel left (left + (right - left) / 2)
            ((st.1 ++ [T1]) ++ [T2], st.2 + 2)).2 (by omega) (by omega)
        refine ⟨[T1, T2] ++ (dl ++ dr), ?_, ?_, ?_⟩
        · rw [hdr1, hdl1]
          simp
        · have e1 : ((st.1 ++ [T1]) ++ [T2]).length = st.1.length + 2 := by
            simp
          rw [e1] at hdl2
          rw [hdl1] at hdr2
          have e2 : (((st.1 ++ [T1]) ++ [T2]) ++ dl).length =
              (st.1.length + 2) + dl.length := by
            simp
            omega
          rw [e2] at hdr2
          simp only [treeIds, hdr2, hdl2]
          rw [List.range'_append_1]
          rw [show ([T1, T2] ++ (dl ++ dr)).length =
              (dr.length + dl.length) + 2 by
            simp only [List.length_append, List.length_cons, List.length_nil]
            omega,
            range'_two]
          simp
        · intro tr htr
          rcases List.mem_append.mp htr with h | h
          · exact hprops tr h
          · rcases List.mem_append.mp h with h2 | h2
            · exact hdl3 tr h2
            · exact hdr3 tr h2

/-- C4: in every probability tree wired by `_impl_rand_tree`, the trigger
leading to a leaf with stored value 0 receives no swap `SCRIPT_CALL`
effect, and the trigger leading to a leaf with stored value `k ≠ 0`
receives exactly one swap `SCRIPT_CALL`, whose message swaps the variable
at index 0 with the variable at index `k`. -/
theorem c4_swap_effects (pre : Option String) (n : ℤ) (hn : 1 ≤ n)
    (tm : List Trigger) (t : ProbTree)
    (ht : (declareProbTree pre n tm).1 = .ok t) (g : ℕ) :
    ∀ cn l r, (cn, l, r) ∈ internals t →
      ∀ child tid,
        ((child, tid) = (l, cn.success) ∨ (child, tid) = (r, cn.failure)) →
        ∀ k, child = .leaf k →
          ∃ tr,
            (implNode ⟨(declareProbTree pre n tm).2, g⟩ t).tm[tid]? =
              some tr ∧
            (k = 0 → tr.effects.filter isScriptCall = []) ∧
            (k ≠ 0 → ∃ gg, tr.effects.filter isScriptCall =
              [.scriptCall (swapMsg gg (varId 0) (varId k))]) := by
  have hno : ¬ n < 1 := not_lt.mpr hn
  simp only [declareProbTree, if_neg hno, Except.ok.injEq] at ht ⊢
  obtain ⟨d, hd1, hd2, hd3⟩ := declareRangeF_ids (namePreFor pre n)
    (n.toNat + 1) 0 (n.toNat + 1) (tm, 0) (by omega) (by omega)
  rw [show ((tm, (0 : ℕ)).1 : List Trigger) = tm from rfl] at hd1 hd2
  rw [← ht]
  have hnodup : (treeIds
      (declareRangeF (namePreFor pre n) (n.toNat + 1) 0 (n.toNat + 1)
        (tm, 0)).1).Nodup := by
    rw [hd2]
    exact List.nodup_range' ..
  have hfresh : ∀ id ∈ treeIds
      (declareRangeF (namePreFor pre n) (n.toNat + 1) 0 (n.toNat + 1)
        (tm, 0)).1,
      ∃ tr, ((declareRangeF (namePreFor pre n) (n.toNat + 1) 0 (n.toNat + 1)
          (tm, 0)).2.1)[id]? = some tr ∧ tr.effects = [] := by
    intro id hid
    rw [hd2, List.mem_range'_1] at hid
    have hi : id - tm.length < d.length := by omega
    rw [hd1]
    rw [List.getElem?_append_right (by omega : tm.length ≤ id),
      List.getElem?_eq_getElem hi]
    exact ⟨d[id - tm.length], rfl, (hd3 _ (List.getElem_mem hi)).2⟩
  intro cn l r hmem child tid hpair k hk
  obtain ⟨⟨trS, hgS, hcS⟩, ⟨trF, hgF, hcF⟩⟩ :=
    implNode_wiring
      (declareRangeF (namePreFor pre n) (n.toNat + 1) 0 (n.toNat + 1)
        (tm, 0)).1
      ⟨(declareRangeF (namePreFor pre n) (n.toNat + 1) 0 (n.toNat + 1)
          (tm, 0)).2.1, g⟩
      hnodup hfresh cn l r hmem
  rcases hpair with heq | heq
  · rw [Prod.mk.injEq] at heq
    obtain ⟨hch, htid⟩ := heq
    subst hch
    subst htid
    subst hk
    refine ⟨trS, hgS, ?_, ?_⟩
    · intro hk0
      subst hk0
      simp only [ChildSuffix] at hcS
      rw [hcS]
      rfl
    · intro hkne
      cases k with
      | zero => exact absurd rfl hkne
      | succ m =>
        simp only [ChildSuffix] at hcS
        obtain ⟨gg, hgg⟩ := hcS
        exact ⟨gg, by rw [hgg]; rfl⟩
  · rw [Prod.mk.injEq] at heq
    obtain ⟨hch, htid⟩ := heq
    subst hch
    subst htid
    subst hk
    refine ⟨trF, hgF, ?_, ?_⟩
    · intro hk0
      subst hk0
      simp only [ChildSuffix] at hcF
      rw [hcF]
      rfl
    · intro hkne
      cases k with
      | zero => exact absurd rfl hkne
      | succ m =>
        simp only [ChildSuffix] at hcF
        obtain ⟨gg, hgg⟩ := hcF
        exact ⟨gg, by rw [hgg]; rfl⟩

/-- Witness for C4 at `n = 2`: the trigger for the leaf with value 0 gets
no swap call; the trigger for the leaf with value 2 gets exactly one swap
call exchanging variables 0 and 2. -/
theorem c4_swap_effects_witness :
    (∃ tr,
      (implNode ⟨(declareProbTree none 2 []).2, 0⟩
          (.node ⟨33, 0, 1⟩ (.leaf 0)
            (.node ⟨50, 2, 3⟩ (.leaf 1) (.leaf 2)))).tm[0]? = some tr ∧
      ((0 : ℕ) = 0 → tr.effects.filter isScriptCall = []) ∧
      ((0 : ℕ) ≠ 0 → ∃ gg, tr.effects.filter isScriptCall =
        [.scriptCall (swapMsg gg (varId 0) (varId 0))])) ∧
    (∃ tr,
      (implNode ⟨(declareProbTree none 2 []).2, 0⟩
          (.node ⟨33, 0, 1⟩ (.leaf 0)
            (.node ⟨50, 2, 3⟩ (.leaf 1) (.leaf 2)))).tm[3]? = some tr ∧
      ((2 : ℕ) = 0 → tr.effects.filter isScriptCall = []) ∧
      ((2 : ℕ) ≠ 0 → ∃ gg, tr.effects.filter isScriptCall =
        [.scriptCall (swapMsg gg (varId 0) (varId 2))])) :=
  ⟨c4_swap_effects none 2 (by norm_num) []
      (.node ⟨33, 0, 1⟩ (.leaf 0) (.node ⟨50, 2, 3⟩ (.leaf 1) (.leaf 2)))
      rfl 0 ⟨33, 0, 1⟩ (.leaf 0)
      (.node ⟨50, 2, 3⟩ (.leaf 1) (.leaf 2)) (by decide)
      (.leaf 0) 0 (Or.inl rfl) 0 rfl,
    c4_swap_effects none 2 (by norm_num) []
      (.node ⟨33, 0, 1⟩ (.leaf 0) (.node ⟨50, 2, 3⟩ (.leaf 1) (.leaf 2)))
      rfl 0 ⟨50, 2, 3⟩ (.leaf 1) (.leaf 2) (by decide)
      (.leaf 2) 3 (Or.inr rfl) 2 rfl⟩

/-- `declare_range` only appends to the trigger manager: for every fuel,
subrange, and starting state, the resulting trigger list extends the
input list. -/
theorem declareRangeF_extend (pre : String) :
    ∀ fuel left right (st : List Trigger × ℕ),
      ∃ d : List Trigger,
        (declareRangeF pre fuel left right st).2.1 = st.1 ++ d := by
  intro fuel
  induction fuel with
  | zero =>
    intro l r st
    exact ⟨[], by simp [declareRangeF]⟩
  | succ fuel ih =>
    intro left right st
    simp only [declareRangeF, addTrigger]
    set T1 : Trigger :=
      ⟨pre ++ " " ++ String.singleton (Char.ofNat (97 + st.2)) ++
        " success", false, false, [], []⟩ with hT1
    set T2 : Trigger :=
      ⟨pre ++ " " ++ String.singleton (Char.ofNat (97 + st.2 + 1)) ++
        " failure", false, false, [], []⟩ with hT2
    by_cases hL : left + (right - left) / 2 - left = 1
    · rw [if_pos hL]
      by_cases hR : right - (left + (right - left) / 2) = 1
      · rw [if_pos hR]
        exact ⟨[T1, T2], by simp⟩
      · rw [if_neg hR]
        obtain ⟨dr, hdr⟩ := ih (left + (right - left) / 2) right
          ((st.1 ++ [T1]) ++ [T2], st.2 + 2)
        exact ⟨[T1, T2] ++ dr, by rw [hdr]; simp⟩
    · rw [if_neg hL]
      by_cases hR : right - (left + (right - left) / 2) = 1
      · rw [if_pos hR]
        obtain ⟨dl, hdl⟩ := ih left (left + (right - left) / 2)
          ((st.1 ++ [T1]) ++ [T2], st.2 + 2)
        exact ⟨[T1, T2] ++ dl, by rw [hdl]; simp⟩
      · rw [if_neg hR]
        obtain ⟨dl, hdl⟩ := ih left (left + (right - left) / 2)
          ((st.1 ++ [T1]) ++ [T2], st.2 + 2)
        obtain ⟨dr, hdr⟩ := ih (left + (right - left) / 2) right
          (declareRangeF pre fuel left (left + (right - left) / 2)
            ((st.1 ++ [T1]) ++ [T2], st.2 + 2)).2
        refine ⟨[T1, T2] ++ (dl ++ dr), ?_⟩
        rw [hdr, hdl]
        simp

/-- `_declare_prob_tree` only appends to the trigger manager. -/
theorem declareProbTree_extend (pre : Option String) (n : ℤ)
    (tm : List Trigger) :
    ∃ d : List Trigger, (declareProbTree pre n tm).2 = tm ++ d := by
  by_cases h : n < 1
  · exact ⟨[], by simp [declareProbTree, h]⟩
  · obtain ⟨d, hd⟩ := declareRangeF_extend (namePreFor pre n)
      (n.toNat + 1) 0 (n.toNat + 1) (tm, 0)
    exact ⟨d, by simpa [declareProbTree, h] using hd⟩

/-- The fold underlying `_declare_rand_int_triggers` only appends to the
trigger manager. -/
theorem foldlProbTrees_extend (pre : String) :
    ∀ (ns : List ℤ) (acc : List (Except String ProbTree) × List Trigger),
      ∃ d : List Trigger,
        (ns.foldl
          (fun acc n =>
            let res := declareProbTree (some pre) n acc.2
            (acc.1 ++ [res.1], res.2)) acc).2 = acc.2 ++ d := by
  intro ns
  induction ns with
  | nil =>
    intro acc
    exact ⟨[], (List.append_nil _).symm⟩
  | cons n ns ih =>
    intro acc
    rw [List.foldl_cons]
    obtain ⟨d2, h2⟩ := ih
      ((fun acc n =>
        let res := declareProbTree (some pre) n acc.2
        (acc.1 ++ [res.1], res.2)) acc n)
    obtain ⟨d1, h1⟩ := declareProbTree_extend (some pre) n acc.2
    refine ⟨d1 ++ d2, ?_⟩
    rw [h2]
    show (declareProbTree (some pre) n acc.2).2 ++ d2 = acc.2 ++ (d1 ++ d2)
    rw [h1, List.append_assoc]

/-- `_declare_rand_int_triggers` only appends to the trigger manager. -/
theorem declareRandIntTriggers_extend (pre : String) (tm : List Trigger) :
    ∃ d : List Trigger, (declareRandIntTriggers pre tm).2 = tm ++ d := by
  obtain ⟨d, hd⟩ := foldlProbTrees_extend pre [6, 5, 4, 3, 2, 1] ([], tm)
  exact ⟨d, hd⟩

/-- Looking up the index right after a prefix block returns the first
trigger appended past that block. -/
theorem lookup_append_cons (A B : List Trigger) (t : Trigger) (i : ℕ)
    (hi : i = A.length) : (A ++ t :: B)[i]? = some t := by
  subst hi
  rw [List.getElem?_append_right (le_refl _)]
  simp

/-- C9: in the trigger list declared by `TetrisData.__init__`, the Game
Loop trigger is declared looping and initially disabled, while the Update,
Game Over, and Cleanup triggers are each declared one-shot (non-looping)
and initially disabled. -/
theorem c9_scheduler_modes (rows cols visible : ℕ) :
    (tetrisInitTriggers rows cols visible)[gameLoopId]? =
      some ⟨"Game Loop", false, true, [], []⟩ ∧
    (tetrisInitTriggers rows cols visible)[updateId]? =
      some ⟨"Update", false, false, [], []⟩ ∧
    (tetrisInitTriggers rows cols visible)[gameOverId rows cols visible]? =
      some ⟨"Game Over", false, false, [], []⟩ ∧
    (tetrisInitTriggers rows cols visible)[cleanupId rows cols visible]? =
      some ⟨"Cleanup", false, false, [], []⟩ := by
  obtain ⟨dI, hdI⟩ := declareRandIntTriggers_extend "Init b"
    (tmStage6 ++ [⟨"Activate Shuffle", false, false, [], []⟩])
  have h34 : tmStage4 = tmStage3 ++ [⟨"Game Loop", false, true, [], []⟩] := by
    simp [tmStage4, addTrigger]
  have h45 : tmStage5 =
      tmStage4 ++
        (selectionTriggers ++ [⟨"New Game", false, false, [], []⟩]) := by
    simp [tmStage5]
  have h56 : tmStage6 = tmStage5 ++ [⟨"Update", false, false, [], []⟩] := by
    simp [tmStage6, addTrigger]
  have h67 : tmStage7 =
      tmStage6 ++ ([⟨"Activate Shuffle", false, false, [], []⟩] ++ dI ++
        [⟨"-- Rendering --", true, false, [], []⟩]) := by
    simp only [tmStage7, hdI, List.append_assoc]
  have h78 : tmStage8 rows cols visible =
      tmStage7 ++ (clearRowTriggers rows visible ++
        renderTriggerList rows cols ++ renderNextTriggers ++
        renderHoldTriggers ++ explodeRowTriggers rows visible ++
        [⟨"React Tetris", false, false, [], []⟩,
          ⟨"React Move", false, false, [], []⟩,
          ⟨"React Hold", false, false, [], []⟩,
          ⟨"React Hold Fail", false, false, [], []⟩,
          ⟨"React Lock", false, false, [], []⟩]) := by
    simp only [tmStage8, List.append_assoc]
  have h89 : tmStage9 rows cols visible =
      tmStage8 rows cols visible ++
        (⟨"Game Over", false, false, [], []⟩ ::
          [⟨"React Game Over", false, false, [], []⟩,
            ⟨"React Game Over Easter Egg", false, false, [], []⟩,
            ⟨"-- Ending Game Loop --", true, false, [], []⟩]) := by
    simp [tmStage9, addTrigger]
  have h9I : tetrisInitTriggers rows cols visible =
      tmStage9 rows cols visible ++
        (⟨"Cleanup", false, false, [], []⟩ ::
          [⟨"Begin Game End", false, false, [], []⟩]) := by
    simp [tetrisInitTriggers, addTrigger]
  refine ⟨?_, ?_, ?_, ?_⟩
  · rw [h9I, h89, h78, h67, h56, h45, h34]
    simp only [List.append_assoc, List.cons_append, List.nil_append]
    exact lookup_append_cons _ _ _ _ rfl
  · rw [h9I, h89, h78, h67, h56]
    simp only [List.append_assoc, List.cons_append, List.nil_append]
    exact lookup_append_cons _ _ _ _ rfl
  · rw [h9I, h89]
    simp only [List.append_assoc, List.cons_append, List.nil_append]
    exact lookup_append_cons _ _ _ _ rfl
  · rw [h9I]
    exact lookup_append_cons _ _ _ _ rfl

end Aoe2Tetris
